import Mathlib

/-!
Verification of the numeric core of the SchoolOfStatistics repository.

Shallow embedding of the JavaScript sources:
  * `src/js/common.js` — `calculateRocAndAuc`
  * `src/js/fourier_transform.js` — `fft`, `dft`, `computeMagnitudeSpectrum`
  * `src/js/inverse_classifier.js` — `adjustValues`, the derived metrics of `updateUI`
  * `src/js/linear_regression.js` — `fitPolynomialRegression` and its linear algebra
  * `src/js/direct_classifier.js` — `getConfusionMatrix`

JavaScript numbers are modelled as real numbers (`ℝ`); the float-specific
values NaN/Infinity do not exist in this model, and division by zero is the
Lean convention `x / 0 = 0`.  Counters and indices are `ℕ`.  Mutable arrays
are modelled as `List` values or as functions `ℕ → ℝ` updated with
`Function.update`; `for` loops become folds over `List.range`.
-/

namespace SoS

/-! ## Confusion matrix (`getConfusionMatrix`, src/js/direct_classifier.js) -/

/-- The record `{tp, fp, tn, fn}` returned by `getConfusionMatrix`. -/
structure ConfusionCounts where
  tp : ℕ
  fp : ℕ
  tn : ℕ
  fn : ℕ
deriving DecidableEq

/-- One iteration of the `labels.forEach` body of `getConfusionMatrix`:
`const prediction = scores[i] >= threshold ? 1 : 0;` followed by the four
`if/else if` count increments. -/
noncomputable def confusionStep (threshold : ℝ) (acc : ConfusionCounts) (pr : ℕ × ℝ) :
    ConfusionCounts :=
  let prediction : ℕ := if threshold ≤ pr.2 then 1 else 0
  if prediction = 1 ∧ pr.1 = 1 then { acc with tp := acc.tp + 1 }
  else if prediction = 1 ∧ pr.1 = 0 then { acc with fp := acc.fp + 1 }
  else if prediction = 0 ∧ pr.1 = 0 then { acc with tn := acc.tn + 1 }
  else if prediction = 0 ∧ pr.1 = 1 then { acc with fn := acc.fn + 1 }
  else acc

/-- Source `getConfusionMatrix(labels, scores, threshold)` from
src/js/direct_classifier.js: starts from zero counts and folds
`confusionStep` over the label/score pairs. -/
noncomputable def getConfusionMatrix (labels : List ℕ) (scores : List ℝ) (threshold : ℝ) :
    ConfusionCounts :=
  (labels.zip scores).foldl (confusionStep threshold) ⟨0, 0, 0, 0⟩

/-- Fold-level version of the confusion-matrix bookkeeping: for binary labels,
every processed pair increments exactly one of the four counters, and it
increments `tp`/`fp` exactly when its score is at least the threshold. -/
theorem confusionFold_spec (threshold : ℝ) (pairs : List (ℕ × ℝ))
    (hbin : ∀ pr ∈ pairs, pr.1 = 0 ∨ pr.1 = 1) (acc : ConfusionCounts) :
    let c := pairs.foldl (confusionStep threshold) acc
    (c.tp + c.fp + c.tn + c.fn = acc.tp + acc.fp + acc.tn + acc.fn + pairs.length) ∧
    (c.tp + c.fp = acc.tp + acc.fp + pairs.countP (fun pr => decide (threshold ≤ pr.2))) ∧
    (c.tn + c.fn = acc.tn + acc.fn + pairs.countP (fun pr => decide (pr.2 < threshold))) := by
  induction pairs generalizing acc with
  | nil => simp
  | cons pr rest ih =>
    have hpr : pr.1 = 0 ∨ pr.1 = 1 := hbin pr (by simp)
    have hrest : ∀ q ∈ rest, q.1 = 0 ∨ q.1 = 1 := fun q hq => hbin q (by simp [hq])
    obtain ⟨H1, H2, H3⟩ := ih hrest (confusionStep threshold acc pr)
    simp only [List.foldl_cons, List.countP_cons, List.length_cons]
    rcases hpr with h | h <;> by_cases hth : threshold ≤ pr.2 <;>
      (first
        | have hlt : ¬ pr.2 < threshold := not_lt.mpr hth
        | have hlt : pr.2 < threshold := lt_of_not_le hth) <;>
      refine ⟨?_, ?_, ?_⟩ <;>
      (first | rw [H1] | rw [H2] | rw [H3]) <;>
      simp [confusionStep, h, hth, hlt] <;> omega

/-- C6.  For binary labels and scores of the same length, the four counts of
`getConfusionMatrix` sum to the number of samples (each count being a natural
number, hence nonnegative), and a sample lands in `tp`/`fp` exactly when its
score is `≥ threshold`, in `tn`/`fn` exactly when its score is `< threshold`. -/
theorem getConfusionMatrix_spec (labels : List ℕ) (scores : List ℝ) (threshold : ℝ)
    (hlen : labels.length = scores.length)
    (hbin : ∀ l ∈ labels, l = 0 ∨ l = 1) :
    ((getConfusionMatrix labels scores threshold).tp +
        (getConfusionMatrix labels scores threshold).fp +
        (getConfusionMatrix labels scores threshold).tn +
        (getConfusionMatrix labels scores threshold).fn = labels.length) ∧
    ((getConfusionMatrix labels scores threshold).tp +
        (getConfusionMatrix labels scores threshold).fp =
      (labels.zip scores).countP (fun pr => decide (threshold ≤ pr.2))) ∧
    ((getConfusionMatrix labels scores threshold).tn +
        (getConfusionMatrix labels scores threshold).fn =
      (labels.zip scores).countP (fun pr => decide (pr.2 < threshold))) := by
  have hbin' : ∀ pr ∈ labels.zip scores, pr.1 = 0 ∨ pr.1 = 1 := by
    intro pr hpr
    exact hbin pr.1 (List.of_mem_zip hpr).1
  have h := confusionFold_spec threshold (labels.zip scores) hbin' ⟨0, 0, 0, 0⟩
  have hzlen : (labels.zip scores).length = labels.length := by
    rw [List.length_zip, hlen, min_self]
  refine ⟨?_, ?_, ?_⟩
  · have := h.1
    simpa [getConfusionMatrix, hzlen] using this
  · simpa [getConfusionMatrix] using h.2.1
  · simpa [getConfusionMatrix] using h.2.2

/-- Witness for C6 at a concrete input. -/
theorem getConfusionMatrix_spec_witness :
    let labels : List ℕ := [1, 0, 1]
    let scores : List ℝ := [1, 0, 0]
    let c := getConfusionMatrix labels scores (1 / 2)
    (c.tp + c.fp + c.tn + c.fn = labels.length) ∧
    (c.tp + c.fp = (labels.zip scores).countP (fun pr => decide ((1 : ℝ) / 2 ≤ pr.2))) ∧
    (c.tn + c.fn = (labels.zip scores).countP (fun pr => decide (pr.2 < (1 : ℝ) / 2))) :=
  getConfusionMatrix_spec [1, 0, 1] [1, 0, 0] (1 / 2) (by rfl) (by decide)

/-! ## Derived metrics of `updateUI` (src/js/inverse_classifier.js) -/

/-- Source `const precision = (tp + fp) > 0 ? tp / (tp + fp) : 0;`. -/
noncomputable def precision (tp fp : ℕ) : ℝ :=
  if 0 < tp + fp then (tp : ℝ) / ((tp : ℝ) + fp) else 0

/-- Source `const recall = (tp + fn) > 0 ? tp / (tp + fn) : 0;`
(the source name `recall` is a Lean command keyword, hence the suffix). -/
noncomputable def recallStat (tp fn : ℕ) : ℝ :=
  if 0 < tp + fn then (tp : ℝ) / ((tp : ℝ) + fn) else 0

/-- Source `const f1score = (precision + recall) > 0 ?
      2 * (precision * recall) / (precision + recall) : 0;` -/
noncomputable def f1score (tp fp fn : ℕ) : ℝ :=
  let p := precision tp fp
  let r := recallStat tp fn
  if 0 < p + r then 2 * (p * r) / (p + r) else 0

/-- C9.  When `tp + fp > 0` and `tp + fn > 0`, the F1 score computed from
precision and recall collapses to `2·tp / (2·tp + fp + fn)`. -/
theorem f1score_eq_counts (tp fp fn : ℕ) (h1 : 0 < tp + fp) (h2 : 0 < tp + fn) :
    f1score tp fp fn = 2 * (tp : ℝ) / (2 * (tp : ℝ) + fp + fn) := by
  have ha : (0 : ℝ) < (tp : ℝ) + fp := by
    have : (0 : ℝ) < ((tp + fp : ℕ) : ℝ) := by exact_mod_cast h1
    push_cast at this; linarith
  have hb : (0 : ℝ) < (tp : ℝ) + fn := by
    have : (0 : ℝ) < ((tp + fn : ℕ) : ℝ) := by exact_mod_cast h2
    push_cast at this; linarith
  rcases Nat.eq_zero_or_pos tp with htp | htp
  · subst htp
    simp [f1score, precision, recallStat, h1, h2]
  · have htpR : (0 : ℝ) < tp := by exact_mod_cast htp
    have hp : precision tp fp = (tp : ℝ) / ((tp : ℝ) + fp) := by simp [precision, h1]
    have hr : recallStat tp fn = (tp : ℝ) / ((tp : ℝ) + fn) := by simp [recallStat, h2]
    have hppos : 0 < precision tp fp := by
      rw [hp]; positivity
    have hrpos : 0 < recallStat tp fn := by
      rw [hr]; positivity
    have hsum : 0 < precision tp fp + recallStat tp fn := by linarith
    rw [f1score]
    simp only [hsum, if_pos]
    rw [hp, hr]
    have hden : (0 : ℝ) < 2 * (tp : ℝ) + fp + fn := by linarith
    field_simp
    ring

/-- Witness for C9 at a concrete input. -/
theorem f1score_eq_counts_witness :
    f1score 2 1 1 = 2 * (2 : ℝ) / (2 * (2 : ℝ) + 1 + 1) :=
  by simpa using f1score_eq_counts 2 1 1 (by decide) (by decide)

/-! ## ROC curve and AUC (`calculateRocAndAuc`, src/js/common.js) -/

/-- The record `{rocPoints, auc}` returned by `calculateRocAndAuc`; a point
`{x, y}` is modelled as the pair `(x, y) = (fpr, tpr)`. -/
structure RocResult where
  rocPoints : List (ℝ × ℝ)
  auc : ℝ

/-- The guarded quotient `den > 0 ? num / den : 0` used for `tpr` and `fpr`. -/
noncomputable def ratio (den num : ℕ) : ℝ :=
  if 0 < den then (num : ℝ) / den else 0

/-- Source `pairs.sort((a, b) => b.score - a.score)`: stable sort by descending
score (JavaScript `Array.prototype.sort` is stable, as is `mergeSort`). -/
noncomputable def sortPairsDesc (pairs : List (ℕ × ℝ)) : List (ℕ × ℝ) :=
  pairs.mergeSort (fun a b => decide (b.2 ≤ a.2))

/-- The `for (const pair of pairs)` loop of `calculateRocAndAuc`: running
`tp`/`fp` counters, one emitted ROC point per pair, and trapezoidal AUC
accumulation. -/
noncomputable def rocLoop (totalPos totalNeg : ℕ) :
    List (ℕ × ℝ) → ℕ → ℕ → ℝ → ℝ → ℝ → List (ℝ × ℝ) × ℝ
  | [], _, _, _, _, auc => ([], auc)
  | pair :: rest, tp, fp, prevTpr, prevFpr, auc =>
      let tp' := if pair.1 = 1 then tp + 1 else tp
      let fp' := if pair.1 = 1 then fp else fp + 1
      let tpr := ratio totalPos tp'
      let fpr := ratio totalNeg fp'
      let auc' := auc + (tpr + prevTpr) / 2 * (fpr - prevFpr)
      let res := rocLoop totalPos totalNeg rest tp' fp' tpr fpr auc'
      ((fpr, tpr) :: res.1, res.2)

/-- Source `calculateRocAndAuc(labels, scores)` from src/js/common.js.  Pairs are
`labels.map((label, i) => ({label, score: scores[i]}))` (`List.zip` under the
equal-length hypotheses of the theorems below), sorted by descending score;
the degenerate single-class case returns the diagonal chance line. -/
noncomputable def calculateRocAndAuc (labels : List ℕ) (scores : List ℝ) : RocResult :=
  let pairs := labels.zip scores
  let sorted := sortPairsDesc pairs
  let totalPos := (labels.filter (fun l => l == 1)).length
  let totalNeg := labels.length - totalPos
  if totalPos = 0 ∨ totalNeg = 0 then ⟨[(0, 0), (1, 1)], 0.5⟩
  else
    let res := rocLoop totalPos totalNeg sorted 0 0 0 0 0
    ⟨(0, 0) :: res.1, res.2⟩

/-- Number of processed pairs whose label is `1` (incrementing `tp`). -/
def cntPos (pairs : List (ℕ × ℝ)) : ℕ := pairs.countP (fun pr => pr.1 == 1)

/-- Number of processed pairs whose label is not `1` (incrementing `fp`). -/
def cntNeg (pairs : List (ℕ × ℝ)) : ℕ := pairs.countP (fun pr => !(pr.1 == 1))

theorem cntPos_add_cntNeg (pairs : List (ℕ × ℝ)) :
    cntPos pairs + cntNeg pairs = pairs.length := by
  induction pairs with
  | nil => rfl
  | cons pr rest ih =>
    simp only [cntPos, cntNeg, List.countP_cons, List.length_cons] at *
    cases h : (pr.1 == 1) <;> simp [h] <;> omega

theorem ratio_nonneg (den num : ℕ) : 0 ≤ ratio den num := by
  unfold ratio
  split
  · positivity
  · exact le_refl 0

theorem ratio_zero (den : ℕ) : ratio den 0 = 0 := by
  unfold ratio; split <;> simp

theorem ratio_mono (den : ℕ) {m n : ℕ} (h : m ≤ n) : ratio den m ≤ ratio den n := by
  by_cases hd : 0 < den
  · have hdR : (0 : ℝ) < den := by exact_mod_cast hd
    simp only [ratio, hd, if_pos]
    rw [div_le_div_iff hdR hdR]
    have : (m : ℝ) ≤ n := by exact_mod_cast h
    nlinarith
  · simp [ratio, hd]

theorem ratio_le_one (den : ℕ) {n : ℕ} (h : n ≤ den) : ratio den n ≤ 1 := by
  by_cases hd : 0 < den
  · have hdR : (0 : ℝ) < den := by exact_mod_cast hd
    simp only [ratio, hd, if_pos]
    rw [div_le_one hdR]
    exact_mod_cast h
  · simp [ratio, hd]

theorem ratio_self {den : ℕ} (h : 0 < den) : ratio den den = 1 := by
  have hdR : (0 : ℝ) < den := by exact_mod_cast h
  simp [ratio, h, div_self (ne_of_gt hdR)]

/-- The points emitted by `rocLoop` form a chain that is non-decreasing in
both coordinates, starting from the point described by the incoming
counters. -/
theorem rocLoop_chain (P Nn : ℕ) (pairs : List (ℕ × ℝ)) :
    ∀ tp fp a, List.Chain' (fun p q : ℝ × ℝ => p.1 ≤ q.1 ∧ p.2 ≤ q.2)
      ((ratio Nn fp, ratio P tp) ::
        (rocLoop P Nn pairs tp fp (ratio P tp) (ratio Nn fp) a).1) := by
  induction pairs with
  | nil => intro tp fp a; simp [rocLoop]
  | cons pair rest ih =>
    intro tp fp a
    by_cases h : pair.1 = 1 <;>
      simp only [rocLoop, h, if_pos, if_neg, ite_true, ite_false] <;>
      refine List.Chain'.cons ⟨ratio_mono Nn (by omega), ratio_mono P (by omega)⟩ ?_ <;>
      exact ih _ _ _

/-- The last point of the `rocLoop` output (with the incoming point
prepended) is determined by the total counts of positive and non-positive
labels among the processed pairs. -/
theorem rocLoop_last (P Nn : ℕ) (pairs : List (ℕ × ℝ)) :
    ∀ tp fp pt pf a,
      ((ratio Nn fp, ratio P tp) :: (rocLoop P Nn pairs tp fp pt pf a).1).getLast? =
        some (ratio Nn (fp + cntNeg pairs), ratio P (tp + cntPos pairs)) := by
  induction pairs with
  | nil => intro tp fp pt pf a; simp [rocLoop, cntPos, cntNeg]
  | cons pair rest ih =>
    intro tp fp pt pf a
    by_cases h : pair.1 = 1 <;>
      simp only [rocLoop, h, ite_true, ite_false, List.getLast?_cons_cons] <;>
      rw [ih] <;>
      simp [cntPos, cntNeg, List.countP_cons, h] <;>
      congr 1 <;> omega

/-- The AUC accumulated by `rocLoop` increases, and by at most the total
advance of the false-positive rate, provided `tp` can never exceed the
positive total. -/
theorem rocLoop_auc_bounds (P Nn : ℕ) (pairs : List (ℕ × ℝ)) :
    ∀ tp fp a, tp + cntPos pairs ≤ P →
      a ≤ (rocLoop P Nn pairs tp fp (ratio P tp) (ratio Nn fp) a).2 ∧
      (rocLoop P Nn pairs tp fp (ratio P tp) (ratio Nn fp) a).2 ≤
        a + (ratio Nn (fp + cntNeg pairs) - ratio Nn fp) := by
  induction pairs with
  | nil =>
    intro tp fp a _
    simp [rocLoop, cntNeg]
  | cons pair rest ih =>
    intro tp fp a htp
    have hcnt : cntPos (pair :: rest) =
        cntPos rest + (if pair.1 = 1 then 1 else 0) := by
      by_cases h : pair.1 = 1 <;> simp [cntPos, List.countP_cons, h]
    have hcntN : cntNeg (pair :: rest) =
        cntNeg rest + (if pair.1 = 1 then 0 else 1) := by
      by_cases h : pair.1 = 1 <;> simp [cntNeg, List.countP_cons, h]
    by_cases h : pair.1 = 1
    · -- positive label: `tp` advances, `fp` (hence `fpr`) is unchanged
      have htp' : (tp + 1) + cntPos rest ≤ P := by
        rw [hcnt, h] at htp; simp at htp; omega
      have ihh := ih (tp + 1) fp
        (a + (ratio P (tp + 1) + ratio P tp) / 2 * (ratio Nn fp - ratio Nn fp)) htp'
      simp only [rocLoop, h, ite_true]
      constructor
      · have := ihh.1
        have hterm : a + (ratio P (tp + 1) + ratio P tp) / 2 *
            (ratio Nn fp - ratio Nn fp) = a := by ring
        rw [hterm] at this ⊢
        exact this
      · have := ihh.2
        have hterm : a + (ratio P (tp + 1) + ratio P tp) / 2 *
            (ratio Nn fp - ratio Nn fp) = a := by ring
        rw [hterm] at this
        rw [hcntN, h]
        simpa using this
    · -- non-positive label: `fp` advances; the trapezoid term is between 0
      -- and the advance of the false-positive rate
      have htp' : tp + cntPos rest ≤ P := by
        rw [hcnt] at htp; simp [h] at htp; omega
      have ihh := ih tp (fp + 1)
        (a + (ratio P tp + ratio P tp) / 2 * (ratio Nn (fp + 1) - ratio Nn fp)) htp'
      simp only [rocLoop, h, ite_false]
      have htpr1 : ratio P tp ≤ 1 := ratio_le_one P (by omega)
      have htpr0 : 0 ≤ ratio P tp := ratio_nonneg P tp
      have hfpr : ratio Nn fp ≤ ratio Nn (fp + 1) := ratio_mono Nn (by omega)
      have hterm0 : 0 ≤ (ratio P tp + ratio P tp) / 2 *
          (ratio Nn (fp + 1) - ratio Nn fp) := by
        apply mul_nonneg
        · linarith
        · linarith
      have hterm1 : (ratio P tp + ratio P tp) / 2 *
          (ratio Nn (fp + 1) - ratio Nn fp) ≤ ratio Nn (fp + 1) - ratio Nn fp := by
        nlinarith [hfpr, htpr1, htpr0]
      constructor
      · have := ihh.1
        linarith
      · have := ihh.2
        rw [hcntN]
        simp only [h, ite_false]
        have hfinal : fp + 1 + cntNeg rest = fp + (cntNeg rest + 1) := by omega
        rw [hfinal] at this
        linarith

/-- C3.  For binary labels with both classes present and scores of the same
length, the ROC points of `calculateRocAndAuc` are non-decreasing in both
coordinates, start at `(0,0)` and end at `(1,1)`. -/
theorem calculateRocAndAuc_curve_spec (labels : List ℕ) (scores : List ℝ)
    (hlen : labels.length = scores.length)
    (hbin : ∀ l ∈ labels, l = 0 ∨ l = 1)
    (hpos : 1 ∈ labels) (hneg : 0 ∈ labels) :
    List.Chain' (fun p q : ℝ × ℝ => p.1 ≤ q.1 ∧ p.2 ≤ q.2)
      (calculateRocAndAuc labels scores).rocPoints ∧
    (calculateRocAndAuc labels scores).rocPoints.head? = some (0, 0) ∧
    (calculateRocAndAuc labels scores).rocPoints.getLast? = some (1, 1) := by
  have hP : 0 < (labels.filter (fun l => l == 1)).length := by
    have : (1 : ℕ) ∈ labels.filter (fun l => l == 1) := by
      simp [List.mem_filter, hpos]
    exact List.length_pos.mpr (List.ne_nil_of_mem this)
  have hPle : (labels.filter (fun l => l == 1)).length ≤ labels.length :=
    List.length_filter_le _ _
  have hPlt : (labels.filter (fun l => l == 1)).length < labels.length := by
    rcases lt_or_eq_of_le hPle with h | h
    · exact h
    · exfalso
      have hall : ∀ l ∈ labels, (l == 1) = true := by
        rw [← List.countP_eq_length_filter] at h
        exact List.countP_eq_length.mp h
      have := hall 0 hneg
      simp at this
  have hN : 0 < labels.length - (labels.filter (fun l => l == 1)).length := by omega
  have hcond : ¬ ((labels.filter (fun l => l == 1)).length = 0 ∨
      labels.length - (labels.filter (fun l => l == 1)).length = 0) := by omega
  -- counts over the sorted pair list coincide with the label totals
  have hperm := List.mergeSort_perm (labels.zip scores) (fun a b => decide (b.2 ≤ a.2))
  have hfst : (labels.zip scores).map Prod.fst = labels :=
    List.map_fst_zip labels scores (le_of_eq hlen)
  have hcntPos : cntPos (sortPairsDesc (labels.zip scores)) =
      (labels.filter (fun l => l == 1)).length := by
    unfold cntPos sortPairsDesc
    rw [List.Perm.countP_eq _ hperm]
    rw [← List.countP_eq_length_filter]
    have : labels.countP (fun l => l == 1) =
        ((labels.zip scores).map Prod.fst).countP (fun l => l == 1) := by rw [hfst]
    rw [this, List.countP_map]
    rfl
  have hcntNeg : cntNeg (sortPairsDesc (labels.zip scores)) =
      labels.length - (labels.filter (fun l => l == 1)).length := by
    have hsum := cntPos_add_cntNeg (sortPairsDesc (labels.zip scores))
    have hslen : (sortPairsDesc (labels.zip scores)).length = labels.length := by
      unfold sortPairsDesc
      rw [hperm.length_eq, List.length_zip, hlen, min_self]
    omega
  simp only [calculateRocAndAuc, hcond, if_neg, not_false_iff]
  refine ⟨?_, ?_, ?_⟩
  · have := rocLoop_chain (labels.filter (fun l => l == 1)).length
      (labels.length - (labels.filter (fun l => l == 1)).length)
      (sortPairsDesc (labels.zip scores)) 0 0 0
    simpa [ratio_zero] using this
  · rfl
  · have := rocLoop_last (labels.filter (fun l => l == 1)).length
      (labels.length - (labels.filter (fun l => l == 1)).length)
      (sortPairsDesc (labels.zip scores)) 0 0 0 0 0
    have h00 : ((0 : ℝ), (0 : ℝ)) = (ratio (labels.length -
        (labels.filter (fun l => l == 1)).length) 0,
        ratio (labels.filter (fun l => l == 1)).length 0) := by
      simp [ratio_zero]
    rw [h00]
    rw [this]
    rw [hcntPos, hcntNeg]
    simp [ratio_self hP, ratio_self hN]

/-- Witness for C3 at a concrete input. -/
theorem calculateRocAndAuc_curve_spec_witness :
    let labels : List ℕ := [1, 0]
    let scores : List ℝ := [1, 0]
    let r := calculateRocAndAuc labels scores
    List.Chain' (fun p q : ℝ × ℝ => p.1 ≤ q.1 ∧ p.2 ≤ q.2) r.rocPoints ∧
    r.rocPoints.head? = some (0, 0) ∧
    r.rocPoints.getLast? = some (1, 1) :=
  calculateRocAndAuc_curve_spec [1, 0] [1, 0] (by rfl) (by decide)
    (by decide) (by decide)

/-- C4.  For binary labels and scores of equal length, the AUC returned by
`calculateRocAndAuc` lies in `[0, 1]`. -/
theorem calculateRocAndAuc_auc_bounds (labels : List ℕ) (scores : List ℝ)
    (hlen : labels.length = scores.length)
    (hbin : ∀ l ∈ labels, l = 0 ∨ l = 1) :
    0 ≤ (calculateRocAndAuc labels scores).auc ∧
    (calculateRocAndAuc labels scores).auc ≤ 1 := by
  by_cases hcond : (labels.filter (fun l => l == 1)).length = 0 ∨
      labels.length - (labels.filter (fun l => l == 1)).length = 0
  · simp only [calculateRocAndAuc, hcond, if_pos]
    norm_num
  · have hperm := List.mergeSort_perm (labels.zip scores) (fun a b => decide (b.2 ≤ a.2))
    have hfst : (labels.zip scores).map Prod.fst = labels :=
      List.map_fst_zip labels scores (le_of_eq hlen)
    have hcntPos : cntPos (sortPairsDesc (labels.zip scores)) =
        (labels.filter (fun l => l == 1)).length := by
      unfold cntPos sortPairsDesc
      rw [List.Perm.countP_eq _ hperm]
      rw [← List.countP_eq_length_filter]
      have : labels.countP (fun l => l == 1) =
          ((labels.zip scores).map Prod.fst).countP (fun l => l == 1) := by rw [hfst]
      rw [this, List.countP_map]
      rfl
    have hcntNeg : cntNeg (sortPairsDesc (labels.zip scores)) =
        labels.length - (labels.filter (fun l => l == 1)).length := by
      have hsum := cntPos_add_cntNeg (sortPairsDesc (labels.zip scores))
      have hslen : (sortPairsDesc (labels.zip scores)).length = labels.length := by
        unfold sortPairsDesc
        rw [hperm.length_eq, List.length_zip, hlen, min_self]
      have hPle : (labels.filter (fun l => l == 1)).length ≤ labels.length :=
        List.length_filter_le _ _
      omega
    have hbounds := rocLoop_auc_bounds (labels.filter (fun l => l == 1)).length
      (labels.length - (labels.filter (fun l => l == 1)).length)
      (sortPairsDesc (labels.zip scores)) 0 0 0 (by rw [hcntPos]; omega)
    have hP : 0 < (labels.filter (fun l => l == 1)).length := by omega
    have hN : 0 < labels.length - (labels.filter (fun l => l == 1)).length := by
      omega
    simp only [calculateRocAndAuc, hcond, if_neg, not_false_iff]
    rw [ratio_zero, ratio_zero] at hbounds
    constructor
    · exact hbounds.1
    · have := hbounds.2
      rw [hcntNeg] at this
      simp only [Nat.zero_add] at this
      rw [ratio_self hN] at this
      linarith

/-- Witness for C4 at a concrete input. -/
theorem calculateRocAndAuc_auc_bounds_witness :
    0 ≤ (calculateRocAndAuc [1, 0] [(1 : ℝ), 0]).auc ∧
    (calculateRocAndAuc [1, 0] [(1 : ℝ), 0]).auc ≤ 1 :=
  calculateRocAndAuc_auc_bounds [1, 0] [1, 0] (by rfl) (by decide)

/-- C5.  On a degenerate input — all labels positive, or none positive
(which includes the empty input) — `calculateRocAndAuc` returns exactly the
two-point diagonal chance line with `auc = 0.5`.  In this real-number model
the result is these exact constants, so no NaN can be produced. -/
theorem calculateRocAndAuc_degenerate (labels : List ℕ) (scores : List ℝ)
    (h : (∀ l ∈ labels, l ≠ 1) ∨ (∀ l ∈ labels, l = 1)) :
    calculateRocAndAuc labels scores = ⟨[(0, 0), (1, 1)], 0.5⟩ := by
  have hcond : (labels.filter (fun l => l == 1)).length = 0 ∨
      labels.length - (labels.filter (fun l => l == 1)).length = 0 := by
    rcases h with h | h
    · left
      have : labels.filter (fun l => l == 1) = [] := by
        apply List.filter_eq_nil_iff.mpr
        intro a ha
        simpa using h a ha
      rw [this]; rfl
    · right
      have : (labels.filter (fun l => l == 1)).length = labels.length := by
        rw [← List.countP_eq_length_filter]
        apply List.countP_eq_length.mpr
        intro a ha
        simpa using h a ha
      omega
  simp only [calculateRocAndAuc]
  rw [if_pos hcond]

/-- Witness for C5 at a concrete input. -/
theorem calculateRocAndAuc_degenerate_witness :
    calculateRocAndAuc [1, 1] [(3 : ℝ), 7] = ⟨[(0, 0), (1, 1)], 0.5⟩ :=
  calculateRocAndAuc_degenerate [1, 1] [3, 7] (Or.inr (by decide))

/-! ## Total-preserving slider adjustment (`adjustValues`,
src/js/inverse_classifier.js) -/

/-- The four confusion-matrix sliders, in the insertion order of the
`currentState` object (`Object.keys` order `tp, fp, tn, fn`). -/
inductive Param
  | tp
  | fp
  | tn
  | fn
deriving DecidableEq

/-- Source `Object.keys(values)` in insertion order. -/
def allParams : List Param := [Param.tp, Param.fp, Param.tn, Param.fn]

/-- Source `const TOTAL_SAMPLES = 100;`. -/
def TOTAL_SAMPLES : ℕ := 100

/-- Source `Object.values(values).reduce((sum, v) => sum + v, 0)`. -/
def sumValues (v : Param → ℕ) : ℕ := (allParams.map v).sum

/-- One `diff > 0` iteration of the `while` loop of `adjustValues`:
stable-sort the unlocked parameters by descending value and decrement the
first one that is `> 0`; `none` models `adjustedInLoop` staying false. -/
def decStep (v : Param → ℕ) (unlocked : List Param) : Option (Param → ℕ) :=
  match (unlocked.mergeSort (fun a b => decide (v b ≤ v a))).find?
      (fun p => decide (0 < v p)) with
  | some p => some (Function.update v p (v p - 1))
  | none => none

/-- One `diff < 0` iteration of the `while` loop of `adjustValues`:
stable-sort the unlocked parameters by ascending value and increment the
first one that is `< TOTAL_SAMPLES`. -/
def incStep (v : Param → ℕ) (unlocked : List Param) : Option (Param → ℕ) :=
  match (unlocked.mergeSort (fun a b => decide (v a ≤ v b))).find?
      (fun p => decide (v p < TOTAL_SAMPLES)) with
  | some p => some (Function.update v p (v p + 1))
  | none => none

/-- The `while (diff !== 0 && unlockedParams.length > 0)` loop of
`adjustValues`; a failed iteration (`!adjustedInLoop`) breaks out with the
remaining `diff`. -/
def adjustLoop (v : Param → ℕ) (unlocked : List Param) (diff : ℤ) :
    (Param → ℕ) × ℤ :=
  if diff = 0 ∨ unlocked = [] then (v, diff)
  else if 0 < diff then
    match decStep v unlocked with
    | some vNext => adjustLoop vNext unlocked (diff - 1)
    | none => (v, diff)
  else
    match incStep v unlocked with
    | some vNext => adjustLoop vNext unlocked (diff + 1)
    | none => (v, diff)
termination_by diff.natAbs
decreasing_by
  · omega
  · omega

/-- Source `adjustValues(changedParam, newValue)` from src/js/inverse_classifier.js,
as a pure function of the prior state and lock configuration: set the edited
field, redistribute the excess `diff` over the unlocked other fields, and
commit the new values exactly when `diff` reaches zero. -/
def adjustValues (lock : Param → Bool) (st : Param → ℕ) (changedParam : Param)
    (newValue : ℕ) : Param → ℕ :=
  let values := Function.update st changedParam newValue
  let diff : ℤ := (sumValues values : ℤ) - TOTAL_SAMPLES
  let unlocked := allParams.filter (fun p => decide (p ≠ changedParam) && !lock p)
  let res := adjustLoop values unlocked diff
  if res.2 = 0 then res.1 else st

/-- The spec's absorption condition: a positive delta must fit in the values
of the unlocked other fields, a negative one in their headroom up to
`TOTAL_SAMPLES`. -/
def canAbsorb (lock : Param → Bool) (st : Param → ℕ) (changedParam : Param)
    (newValue : ℕ) : Prop :=
  let unlocked := allParams.filter (fun p => decide (p ≠ changedParam) && !lock p)
  let d : ℤ := (newValue : ℤ) - st changedParam
  (0 ≤ d → d ≤ ((unlocked.map st).sum : ℤ)) ∧
  (d < 0 → -d ≤ ((unlocked.map (fun p => TOTAL_SAMPLES - st p)).sum : ℤ))

theorem mem_allParams (p : Param) : p ∈ allParams := by
  cases p <;> decide

theorem allParams_nodup : allParams.Nodup := by decide

/-- Updating `v` at a member of a duplicate-free list shifts the sum of
`f ∘ v` over the list by `f x - f (v q)`. -/
theorem sum_map_update (f : ℕ → ℕ) (L : List Param) (hL : L.Nodup) (v : Param → ℕ)
    (q : Param) (hq : q ∈ L) (x : ℕ) :
    ((L.map (fun p => f (Function.update v q x p))).sum : ℤ) =
      ((L.map (fun p => f (v p))).sum : ℤ) - f (v q) + f x := by
  induction L with
  | nil => cases hq
  | cons a L ih =>
    rcases List.mem_cons.mp hq with rfl | hq'
    · have hnot : q ∉ L := (List.nodup_cons.mp hL).1
      have hmap : L.map (fun p => f (Function.update v q x p)) =
          L.map (fun p => f (v p)) := by
        apply List.map_congr_left
        intro p hp
        have hpa : p ≠ q := by
          intro hh
          rw [hh] at hp
          exact hnot hp
        rw [Function.update_noteq hpa]
      simp only [List.map_cons, List.sum_cons, hmap, Function.update_same]
      push_cast
      ring
    · have ha : a ≠ q := by
        intro h
        exact (List.nodup_cons.mp hL).1 (h ▸ hq')
      have := ih (List.nodup_cons.mp hL).2 hq'
      simp only [List.map_cons, List.sum_cons, Function.update_noteq ha]
      push_cast at this ⊢
      linarith

/-- Updating one field shifts `sumValues` by the difference at that field. -/
theorem sumValues_update (v : Param → ℕ) (q : Param) (x : ℕ) :
    ((sumValues (Function.update v q x)) : ℤ) = (sumValues v : ℤ) - v q + x := by
  have := sum_map_update id allParams allParams_nodup v q (mem_allParams q) x
  simpa [sumValues, id] using this

theorem decStep_some {v : Param → ℕ} {U : List Param} {w : Param → ℕ}
    (h : decStep v U = some w) :
    ∃ q, q ∈ U ∧ 0 < v q ∧ w = Function.update v q (v q - 1) := by
  unfold decStep at h
  cases hf : (U.mergeSort (fun a b => decide (v b ≤ v a))).find?
      (fun p => decide (0 < v p)) with
  | none => rw [hf] at h; cases h
  | some q =>
    rw [hf] at h
    refine ⟨q, ?_, ?_, ?_⟩
    · exact (List.mergeSort_perm U _).mem_iff.mp (List.mem_of_find?_eq_some hf)
    · simpa using List.find?_some hf
    · cases h; rfl

theorem decStep_none {v : Param → ℕ} {U : List Param}
    (h : decStep v U = none) : ∀ q ∈ U, v q = 0 := by
  intro q hq
  unfold decStep at h
  cases hf : (U.mergeSort (fun a b => decide (v b ≤ v a))).find?
      (fun p => decide (0 < v p)) with
  | some p => rw [hf] at h; cases h
  | none =>
    have := List.find?_eq_none.mp hf q
      ((List.mergeSort_perm U _).mem_iff.mpr hq)
    simpa using this

theorem incStep_some {v : Param → ℕ} {U : List Param} {w : Param → ℕ}
    (h : incStep v U = some w) :
    ∃ q, q ∈ U ∧ v q < TOTAL_SAMPLES ∧ w = Function.update v q (v q + 1) := by
  unfold incStep at h
  cases hf : (U.mergeSort (fun a b => decide (v a ≤ v b))).find?
      (fun p => decide (v p < TOTAL_SAMPLES)) with
  | none => rw [hf] at h; cases h
  | some q =>
    rw [hf] at h
    refine ⟨q, ?_, ?_, ?_⟩
    · exact (List.mergeSort_perm U _).mem_iff.mp (List.mem_of_find?_eq_some hf)
    · simpa using List.find?_some hf
    · cases h; rfl

theorem incStep_none {v : Param → ℕ} {U : List Param}
    (h : incStep v U = none) : ∀ q ∈ U, TOTAL_SAMPLES ≤ v q := by
  intro q hq
  unfold incStep at h
  cases hf : (U.mergeSort (fun a b => decide (v a ≤ v b))).find?
      (fun p => decide (v p < TOTAL_SAMPLES)) with
  | some p => rw [hf] at h; cases h
  | none =>
    have := List.find?_eq_none.mp hf q
      ((List.mergeSort_perm U _).mem_iff.mpr hq)
    simpa using this

/-- The loop never touches a parameter outside the unlocked list. -/
theorem adjustLoop_frame (v : Param → ℕ) (U : List Param) (d : ℤ) (p : Param)
    (hp : p ∉ U) : (adjustLoop v U d).1 p = v p := by
  induction v, U, d using adjustLoop.induct with
  | case1 v U d h => rw [adjustLoop]; simp [h]
  | case2 v U d h hpos w hdec ih =>
    rw [adjustLoop]
    simp only [h, if_neg, not_false_iff, hpos, if_pos, hdec]
    obtain ⟨q, hqU, _, rfl⟩ := decStep_some hdec
    rw [ih hp]
    have hpq : p ≠ q := by
      intro hh
      rw [hh] at hp
      exact hp hqU
    exact Function.update_noteq hpq _ _
  | case3 v U d h hpos hdec =>
    rw [adjustLoop]; simp [h, hpos, hdec]
  | case4 v U d h hpos w hdec ih =>
    rw [adjustLoop]
    simp only [h, if_neg, not_false_iff, hpos, if_pos, hdec]
    obtain ⟨q, hqU, _, rfl⟩ := incStep_some hdec
    rw [ih hp]
    have hpq : p ≠ q := by
      intro hh
      rw [hh] at hp
      exact hp hqU
    exact Function.update_noteq hpq _ _
  | case5 v U d h hpos hdec =>
    rw [adjustLoop]; simp [h, hpos, hdec]

/-- The difference `diff - (sum of all four fields)` is a loop invariant:
every committed iteration moves `diff` and the total in lockstep. -/
theorem adjustLoop_sum (v : Param → ℕ) (U : List Param) (d : ℤ) :
    (adjustLoop v U d).2 - (sumValues (adjustLoop v U d).1 : ℤ) =
      d - (sumValues v : ℤ) := by
  induction v, U, d using adjustLoop.induct with
  | case1 v U d h => rw [adjustLoop]; simp [h]
  | case2 v U d h hpos w hdec ih =>
    rw [adjustLoop]
    simp only [h, if_neg, not_false_iff, hpos, if_pos, hdec]
    obtain ⟨q, hqU, hq0, rfl⟩ := decStep_some hdec
    have hupd := sumValues_update v q (v q - 1)
    have hcast : ((v q - 1 : ℕ) : ℤ) = (v q : ℤ) - 1 := by omega
    rw [hcast] at hupd
    rw [ih, hupd]
    ring
  | case3 v U d h hpos hdec =>
    rw [adjustLoop]; simp [h, hpos, hdec]
  | case4 v U d h hpos w hdec ih =>
    rw [adjustLoop]
    simp only [h, if_neg, not_false_iff, hpos, if_pos, hdec]
    obtain ⟨q, hqU, hq0, rfl⟩ := incStep_some hdec
    have hupd := sumValues_update v q (v q + 1)
    have hcast : ((v q + 1 : ℕ) : ℤ) = (v q : ℤ) + 1 := by omega
    rw [hcast] at hupd
    rw [ih, hupd]
    ring
  | case5 v U d h hpos hdec =>
    rw [adjustLoop]; simp [h, hpos, hdec]

/-- A nonnegative delta that fits in the unlocked values is fully absorbed. -/
theorem adjustLoop_commit_pos (v : Param → ℕ) (U : List Param) (d : ℤ) :
    U.Nodup → 0 ≤ d → d ≤ ((U.map v).sum : ℤ) → (adjustLoop v U d).2 = 0 := by
  induction v, U, d using adjustLoop.induct with
  | case1 v U d h =>
    intro _ hd0 hdS
    have hd : d = 0 := by
      rcases h with h | h
      · exact h
      · subst h; simp at hdS; omega
    rw [adjustLoop]
    simp [hd]
  | case2 v U d h hpos w hdec ih =>
    intro hU hd0 hdS
    rw [adjustLoop]
    simp only [h, if_neg, not_false_iff, hpos, if_pos, hdec]
    obtain ⟨q, hqU, hq0, rfl⟩ := decStep_some hdec
    have hsum := sum_map_update id U hU v q hqU (v q - 1)
    simp only [id] at hsum
    have hcast : ((v q - 1 : ℕ) : ℤ) = (v q : ℤ) - 1 := by omega
    rw [hcast] at hsum
    apply ih hU (by omega)
    have : ((U.map (fun p => Function.update v q (v q - 1) p)).sum : ℤ) =
        ((U.map v).sum : ℤ) - 1 := by rw [hsum]; ring
    have hmapeq : U.map (Function.update v q (v q - 1)) =
        U.map (fun p => Function.update v q (v q - 1) p) := rfl
    rw [hmapeq, this]
    omega
  | case3 v U d h hpos hdec =>
    intro hU hd0 hdS
    exfalso
    have hzero : (U.map v).sum = 0 := by
      apply List.sum_eq_zero
      intro x hx
      obtain ⟨q, hqU, rfl⟩ := List.mem_map.mp hx
      exact decStep_none hdec q hqU
    rw [hzero] at hdS
    simp at hdS
    omega
  | case4 v U d h hpos w hdec ih =>
    intro _ hd0 _
    exfalso
    have : d ≠ 0 := fun hh => h (Or.inl hh)
    omega
  | case5 v U d h hpos hdec =>
    intro _ hd0 _
    exfalso
    have : d ≠ 0 := fun hh => h (Or.inl hh)
    omega

/-- A negative delta that fits in the unlocked headroom is fully absorbed. -/
theorem adjustLoop_commit_neg (v : Param → ℕ) (U : List Param) (d : ℤ) :
    U.Nodup → d < 0 → -d ≤ ((U.map (fun p => TOTAL_SAMPLES - v p)).sum : ℤ) →
    (adjustLoop v U d).2 = 0 := by
  induction v, U, d using adjustLoop.induct with
  | case1 v U d h =>
    intro _ hd0 hdS
    exfalso
    rcases h with h | h
    · omega
    · subst h; simp at hdS; omega
  | case2 v U d h hpos w hdec ih =>
    intro _ hd0 _
    exfalso
    omega
  | case3 v U d h hpos hdec =>
    intro _ hd0 _
    exfalso
    omega
  | case4 v U d h hpos w hdec ih =>
    intro hU hd0 hdS
    rw [adjustLoop]
    simp only [h, if_neg, not_false_iff, hpos, if_pos, hdec]
    obtain ⟨q, hqU, hq0, rfl⟩ := incStep_some hdec
    have hsum := sum_map_update (fun t => TOTAL_SAMPLES - t) U hU v q hqU (v q + 1)
    have hc1 : ((TOTAL_SAMPLES - (v q + 1) : ℕ) : ℤ) =
        (TOTAL_SAMPLES : ℤ) - v q - 1 := by
      simp only [TOTAL_SAMPLES] at hq0 ⊢
      omega
    have hc2 : ((TOTAL_SAMPLES - v q : ℕ) : ℤ) = (TOTAL_SAMPLES : ℤ) - v q := by
      simp only [TOTAL_SAMPLES] at hq0 ⊢
      omega
    rw [hc1, hc2] at hsum
    by_cases hd1 : d + 1 = 0
    · rw [adjustLoop]
      simp [hd1]
    · apply ih hU (by omega)
      have hmapeq : U.map (fun p => TOTAL_SAMPLES - Function.update v q (v q + 1) p) =
          U.map (fun p => (fun t => TOTAL_SAMPLES - t) (Function.update v q (v q + 1) p)) :=
        rfl
      rw [hmapeq, hsum]
      omega
  | case5 v U d h hpos hdec =>
    intro _ hd0 hdS
    exfalso
    have hzero : (U.map (fun p => TOTAL_SAMPLES - v p)).sum = 0 := by
      apply List.sum_eq_zero
      intro x hx
      obtain ⟨q, hqU, rfl⟩ := List.mem_map.mp hx
      have := incStep_none hdec q hqU
      omega
    rw [hzero] at hdS
    simp at hdS
    omega

/-- A positive delta larger than the unlocked values is never absorbed. -/
theorem adjustLoop_reject_pos (v : Param → ℕ) (U : List Param) (d : ℤ) :
    U.Nodup → 0 < d → ((U.map v).sum : ℤ) < d → (adjustLoop v U d).2 ≠ 0 := by
  induction v, U, d using adjustLoop.induct with
  | case1 v U d h =>
    intro _ hd0 _
    rw [adjustLoop]
    simp only [h, if_pos]
    omega
  | case2 v U d h hpos w hdec ih =>
    intro hU hd0 hdS
    rw [adjustLoop]
    simp only [h, if_neg, not_false_iff, hpos, if_pos, hdec]
    obtain ⟨q, hqU, hq0, rfl⟩ := decStep_some hdec
    have hle : v q ≤ (U.map v).sum :=
      List.single_le_sum (fun x _ => Nat.zero_le x) (v q) (List.mem_map_of_mem v hqU)
    have hsum := sum_map_update id U hU v q hqU (v q - 1)
    simp only [id] at hsum
    have hcast : ((v q - 1 : ℕ) : ℤ) = (v q : ℤ) - 1 := by omega
    rw [hcast] at hsum
    have heta : U.map (fun p => v p) = U.map v := rfl
    rw [heta] at hsum
    apply ih hU (by omega)
    have hmapeq : U.map (Function.update v q (v q - 1)) =
        U.map (fun p => Function.update v q (v q - 1) p) := rfl
    rw [hmapeq, hsum]
    omega
  | case3 v U d h hpos hdec =>
    intro _ hd0 _
    rw [adjustLoop]
    simp only [h, if_neg, not_false_iff, hpos, if_pos, hdec]
    omega
  | case4 v U d h hpos w hdec ih =>
    intro _ hd0 _
    exfalso
    omega
  | case5 v U d h hpos hdec =>
    intro _ hd0 _
    exfalso
    omega

/-- A negative delta exceeding the unlocked headroom is never absorbed. -/
theorem adjustLoop_reject_neg (v : Param → ℕ) (U : List Param) (d : ℤ) :
    U.Nodup → d < 0 → ((U.map (fun p => TOTAL_SAMPLES - v p)).sum : ℤ) < -d →
    (adjustLoop v U d).2 ≠ 0 := by
  induction v, U, d using adjustLoop.induct with
  | case1 v U d h =>
    intro _ hd0 _
    rw [adjustLoop]
    simp only [h, if_pos]
    omega
  | case2 v U d h hpos w hdec ih =>
    intro _ hd0 _
    exfalso
    omega
  | case3 v U d h hpos hdec =>
    intro _ hd0 _
    exfalso
    omega
  | case4 v U d h hpos w hdec ih =>
    intro hU hd0 hdS
    rw [adjustLoop]
    simp only [h, if_neg, not_false_iff, hpos, if_pos, hdec]
    obtain ⟨q, hqU, hq0, rfl⟩ := incStep_some hdec
    have hle : TOTAL_SAMPLES - v q ≤ (U.map (fun p => TOTAL_SAMPLES - v p)).sum :=
      List.single_le_sum (fun x _ => Nat.zero_le x) _
        (List.mem_map_of_mem (fun p => TOTAL_SAMPLES - v p) hqU)
    have hpos1 : 1 ≤ TOTAL_SAMPLES - v q := by
      simp only [TOTAL_SAMPLES] at hq0 ⊢
      omega
    have hsum := sum_map_update (fun t => TOTAL_SAMPLES - t) U hU v q hqU (v q + 1)
    have hc1 : ((TOTAL_SAMPLES - (v q + 1) : ℕ) : ℤ) =
        (TOTAL_SAMPLES : ℤ) - v q - 1 := by
      simp only [TOTAL_SAMPLES] at hq0 ⊢
      omega
    have hc2 : ((TOTAL_SAMPLES - v q : ℕ) : ℤ) = (TOTAL_SAMPLES : ℤ) - v q := by
      simp only [TOTAL_SAMPLES] at hq0 ⊢
      omega
    rw [hc1, hc2] at hsum
    apply ih hU (by omega)
    have hmapeq : U.map (fun p => TOTAL_SAMPLES - Function.update v q (v q + 1) p) =
        U.map (fun p => (fun t => TOTAL_SAMPLES - t) (Function.update v q (v q + 1) p)) :=
      rfl
    rw [hmapeq, hsum]
    omega
  | case5 v U d h hpos hdec =>
    intro _ hd0 _
    rw [adjustLoop]
    simp only [h, if_neg, not_false_iff, hpos, if_pos, hdec]
    omega

/-- C2.  Starting from a state summing to `TOTAL_SAMPLES`, an edit through
`adjustValues` either leaves the state untouched or produces a state in
which the edited field holds `newValue` and the four counts again sum to
`TOTAL_SAMPLES` — never a partially-adjusted state; and the edit commits
exactly when the unlocked other fields can absorb the delta. -/
theorem adjustValues_atomic (lock : Param → Bool) (st : Param → ℕ)
    (changedParam : Param) (newValue : ℕ)
    (hsum : sumValues st = TOTAL_SAMPLES) (hnew : newValue ≤ TOTAL_SAMPLES) :
    (adjustValues lock st changedParam newValue = st ∨
      (adjustValues lock st changedParam newValue changedParam = newValue ∧
        sumValues (adjustValues lock st changedParam newValue) = TOTAL_SAMPLES)) ∧
    (canAbsorb lock st changedParam newValue ↔
      (adjustValues lock st changedParam newValue changedParam = newValue ∧
        sumValues (adjustValues lock st changedParam newValue) = TOTAL_SAMPLES)) := by
  set U := allParams.filter (fun p => decide (p ≠ changedParam) && !lock p) with hUdef
  set values := Function.update st changedParam newValue with hvdef
  set d : ℤ := (sumValues values : ℤ) - TOTAL_SAMPLES with hddef
  have hadj : adjustValues lock st changedParam newValue =
      if (adjustLoop values U d).2 = 0 then (adjustLoop values U d).1 else st := rfl
  have hca : canAbsorb lock st changedParam newValue =
      (((0 : ℤ) ≤ (newValue : ℤ) - st changedParam →
          (newValue : ℤ) - st changedParam ≤ ((U.map st).sum : ℤ)) ∧
        ((newValue : ℤ) - st changedParam < 0 →
          -((newValue : ℤ) - st changedParam) ≤
            ((U.map (fun p => TOTAL_SAMPLES - st p)).sum : ℤ))) := rfl
  have hUnodup : U.Nodup := List.Nodup.filter _ allParams_nodup
  have hchg : changedParam ∉ U := by
    intro h
    rw [hUdef, List.mem_filter] at h
    simp at h
  have hvalchg : values changedParam = newValue := by
    rw [hvdef]
    exact Function.update_same _ _ _
  have hvalU : ∀ p ∈ U, values p = st p := by
    intro p hp
    rw [hUdef, List.mem_filter] at hp
    have hpne : p ≠ changedParam := by
      have h2 := hp.2
      simp only [Bool.and_eq_true, decide_eq_true_eq] at h2
      exact h2.1
    rw [hvdef]
    exact Function.update_noteq hpne _ _
  have hSU : U.map values = U.map st := List.map_congr_left hvalU
  have hHU : U.map (fun p => TOTAL_SAMPLES - values p) =
      U.map (fun p => TOTAL_SAMPLES - st p) :=
    List.map_congr_left (fun p hp => by rw [hvalU p hp])
  have hdval : d = (newValue : ℤ) - st changedParam := by
    rw [hddef, hvdef, sumValues_update, hsum]
    ring
  by_cases hres : (adjustLoop values U d).2 = 0
  · -- the edit commits
    have hr : adjustValues lock st changedParam newValue = (adjustLoop values U d).1 := by
      rw [hadj, if_pos hres]
    have hrchg : adjustValues lock st changedParam newValue changedParam = newValue := by
      rw [hr, adjustLoop_frame values U d changedParam hchg, hvalchg]
    have hrsum : sumValues (adjustValues lock st changedParam newValue) =
        TOTAL_SAMPLES := by
      have hinv := adjustLoop_sum values U d
      rw [hres] at hinv
      have : (sumValues (adjustLoop values U d).1 : ℤ) = TOTAL_SAMPLES := by
        rw [hddef] at hinv ⊢
        omega
      rw [hr]
      exact_mod_cast this
    have habs : canAbsorb lock st changedParam newValue := by
      rw [hca]
      constructor
      · intro h0
        by_contra hlt
        push_neg at hlt
        have hdpos : 0 < d := by
          rw [hdval]
          omega
        have := adjustLoop_reject_pos values U d hUnodup hdpos
          (by rw [hSU, hdval]; exact hlt)
        exact this hres
      · intro hneg
        by_contra hlt
        push_neg at hlt
        have hdneg : d < 0 := by rw [hdval]; exact hneg
        have := adjustLoop_reject_neg values U d hUnodup hdneg
          (by rw [hHU, hdval]; exact hlt)
        exact this hres
    exact ⟨Or.inr ⟨hrchg, hrsum⟩, ⟨fun _ => ⟨hrchg, hrsum⟩, fun _ => habs⟩⟩
  · -- the edit is rejected: the prior state is kept verbatim
    have hr : adjustValues lock st changedParam newValue = st := by
      rw [hadj, if_neg hres]
    have hd0 : d ≠ 0 := by
      intro h
      apply hres
      rw [h, adjustLoop]
      simp
    have hneq : st changedParam ≠ newValue := by
      intro h
      apply hd0
      rw [hdval, h]
      ring
    have hnabs : ¬ canAbsorb lock st changedParam newValue := by
      rw [hca]
      rintro ⟨habs1, habs2⟩
      rcases lt_trichotomy d 0 with hv | hv | hv
      · have := adjustLoop_commit_neg values U d hUnodup hv
          (by rw [hHU, hdval]; exact habs2 (by rw [← hdval]; exact hv))
        exact hres this
      · exact hd0 hv
      · have h0 : (0 : ℤ) ≤ (newValue : ℤ) - st changedParam := by
          rw [← hdval]; omega
        have := adjustLoop_commit_pos values U d hUnodup (le_of_lt hv)
          (by rw [hSU, hdval]; exact habs1 h0)
        exact hres this
    refine ⟨Or.inl hr, ⟨fun hcab => absurd hcab hnabs, fun hrhs => ?_⟩⟩
    exfalso
    apply hneq
    rw [← hrhs.1, hr]

/-- Witness for C2 at a concrete input: state `{tp:40, fp:10, tn:45, fn:5}`,
no locks, edit `tp` to 50. -/
theorem adjustValues_atomic_witness :
    let lock : Param → Bool := fun _ => false
    let st : Param → ℕ := fun p =>
      match p with
      | Param.tp => 40
      | Param.fp => 10
      | Param.tn => 45
      | Param.fn => 5
    (adjustValues lock st Param.tp 50 = st ∨
      (adjustValues lock st Param.tp 50 Param.tp = 50 ∧
        sumValues (adjustValues lock st Param.tp 50) = TOTAL_SAMPLES)) ∧
    (canAbsorb lock st Param.tp 50 ↔
      (adjustValues lock st Param.tp 50 Param.tp = 50 ∧
        sumValues (adjustValues lock st Param.tp 50) = TOTAL_SAMPLES)) :=
  adjustValues_atomic (fun _ => false)
    (fun p => match p with
      | Param.tp => 40
      | Param.fp => 10
      | Param.tn => 45
      | Param.fn => 5)
    Param.tp 50 (by decide) (by decide)

/-- C10.  Whenever `adjustValues` commits, the edited field holds exactly the
requested value and every locked other field keeps its prior value:
redistribution only touches unlocked fields distinct from the edited one. -/
theorem adjustValues_commit_frame (lock : Param → Bool) (st : Param → ℕ)
    (changedParam : Param) (newValue : ℕ) :
    adjustValues lock st changedParam newValue = st ∨
    (adjustValues lock st changedParam newValue changedParam = newValue ∧
      ∀ p, p ≠ changedParam → lock p = true →
        adjustValues lock st changedParam newValue p = st p) := by
  set U := allParams.filter (fun p => decide (p ≠ changedParam) && !lock p) with hUdef
  set values := Function.update st changedParam newValue with hvdef
  set d : ℤ := (sumValues values : ℤ) - TOTAL_SAMPLES with hddef
  have hadj : adjustValues lock st changedParam newValue =
      if (adjustLoop values U d).2 = 0 then (adjustLoop values U d).1 else st := rfl
  by_cases hres : (adjustLoop values U d).2 = 0
  · right
    have hr : adjustValues lock st changedParam newValue = (adjustLoop values U d).1 := by
      rw [hadj, if_pos hres]
    have hchg : changedParam ∉ U := by
      intro h
      rw [hUdef, List.mem_filter] at h
      simp at h
    constructor
    · rw [hr, adjustLoop_frame values U d changedParam hchg, hvdef]
      exact Function.update_same _ _ _
    · intro p hpne hplock
      have hpU : p ∉ U := by
        intro h
        rw [hUdef, List.mem_filter] at h
        have h2 := h.2
        simp only [Bool.and_eq_true] at h2
        rw [hplock] at h2
        simp at h2
      rw [hr, adjustLoop_frame values U d p hpU, hvdef]
      exact Function.update_noteq hpne _ _
  · left
    rw [hadj, if_neg hres]

/-- Witness for C10 at a concrete input (with a locked field `fn`). -/
theorem adjustValues_commit_frame_witness :
    let lock : Param → Bool := fun p => p = Param.fn
    let st : Param → ℕ := fun p =>
      match p with
      | Param.tp => 40
      | Param.fp => 10
      | Param.tn => 45
      | Param.fn => 5
    adjustValues lock st Param.tp 60 = st ∨
    (adjustValues lock st Param.tp 60 Param.tp = 60 ∧
      ∀ p, p ≠ Param.tp → (fun q => decide (q = Param.fn)) p = true →
        adjustValues lock st Param.tp 60 p = st p) :=
  adjustValues_commit_frame (fun p => p = Param.fn)
    (fun p => match p with
      | Param.tp => 40
      | Param.fp => 10
      | Param.tn => 45
      | Param.fn => 5)
    Param.tp 60

/-! ## Polynomial regression (src/js/linear_regression.js) -/

/-- Source `buildVandermonde(X, degree)`: row `i` holds `X[i]^j` for `j = 0..degree`. -/
noncomputable def buildVandermonde (X : List ℝ) (degree : ℕ) : List (List ℝ) :=
  X.map (fun x => (List.range (degree + 1)).map (fun j => x ^ j))

/-- Source `transpose(matrix)`: `cols = matrix[0].length` rows of the column values. -/
noncomputable def transpose (M : List (List ℝ)) : List (List ℝ) :=
  (List.range (M.headD []).length).map (fun j => M.map (fun row => row.getD j 0))

/-- Source `multiply(A, B)`: row `i`, column `j < B[0].length`, summing over
`k < A[0].length`. -/
noncomputable def multiply (A B : List (List ℝ)) : List (List ℝ) :=
  A.map (fun rowA =>
    (List.range ((B.headD []).length)).map (fun j =>
      ∑ k ∈ Finset.range ((A.headD []).length),
        rowA.getD k 0 * (B.getD k []).getD j 0))

/-- Entry access into the augmented matrix
`M = A.map((row, i) => [...row, b[i][0]])` of `solveLinearSystem`. -/
noncomputable def augmented (A b : List (List ℝ)) (k j : ℕ) : ℝ :=
  ((A.getD k []) ++ [(b.getD k []).getD 0 0]).getD j 0

/-- The partial-pivoting scan of `solveLinearSystem`: the first row index in
`[i, n)` attaining the maximal `|M[k][i]|` (strict improvement, starting
from `maxRow = i`). -/
noncomputable def pivotRow (M : ℕ → ℕ → ℝ) (n i : ℕ) : ℕ :=
  (List.range (n - (i + 1))).foldl
    (fun maxRow k0 =>
      if |M maxRow i| < |M (i + 1 + k0) i| then i + 1 + k0 else maxRow) i

/-- Row swap `[M[i], M[maxRow]] = [M[maxRow], M[i]]` of `solveLinearSystem`. -/
noncomputable def swapRows (M : ℕ → ℕ → ℝ) (r s : ℕ) : ℕ → ℕ → ℝ :=
  fun k j => if k = r then M s j else if k = s then M r j else M k j

/-- The inner elimination of `solveLinearSystem`: for `k = i+1..n-1` and
`j = i..n`, `M[k][j] -= (M[k][i] / M[i][i]) * M[i][j]` (the factor is read
out before the `j` loop, and row `i` is untouched, so the loop collapses to
this pointwise form). -/
noncomputable def elimBelow (M : ℕ → ℕ → ℝ) (n i : ℕ) : ℕ → ℕ → ℝ :=
  fun k j =>
    if i + 1 ≤ k ∧ k < n ∧ i ≤ j ∧ j ≤ n then M k j - M k i / M i i * M i j
    else M k j

/-- Forward elimination with partial pivoting over columns `i = 0..n-1`. -/
noncomputable def forwardElim (M : ℕ → ℕ → ℝ) (n : ℕ) : ℕ → ℕ → ℝ :=
  (List.range n).foldl (fun M i => elimBelow (swapRows M i (pivotRow M n i)) n i) M

/-- Back substitution of `solveLinearSystem`, processing `m` indices
`i = n-1, n-2, ..., n-m`: `x[i] = M[i][n] / M[i][i]` followed by
`M[k][n] -= M[k][i] * x[i]` for `k < i`; `x` starts as the zero-filled
array `new Array(n).fill(0)`. -/
noncomputable def backSubAux (M0 : ℕ → ℕ → ℝ) (n : ℕ) :
    ℕ → ((ℕ → ℕ → ℝ) × (ℕ → ℝ))
  | 0 => (M0, fun _ => 0)
  | m + 1 =>
    let prev := backSubAux M0 n m
    let M := prev.1
    let i := n - 1 - m
    let xi := M i n / M i i
    (fun k j => if j = n ∧ k < i then M k j - M k i * xi else M k j,
     Function.update prev.2 i xi)

/-- Source `solveLinearSystem(A, b)` from src/js/linear_regression.js: Gaussian
elimination with partial pivoting on the augmented matrix, then back
substitution, returning the solution array of length `A.length`. -/
noncomputable def solveLinearSystem (A b : List (List ℝ)) : List ℝ :=
  let n := A.length
  let M := forwardElim (augmented A b) n
  (List.range n).map (backSubAux M n n).2

/-- Source `fitPolynomialRegression(X, y, degree)` from src/js/linear_regression.js:
`null` when fewer than `degree + 1` points, otherwise the solution of the
normal equations `(VᵗV)β = Vᵗy` for the Vandermonde matrix `V`. -/
noncomputable def fitPolynomialRegression (X y : List ℝ) (degree : ℕ) :
    Option (List ℝ) :=
  if X.length < degree + 1 then none
  else
    let V := buildVandermonde X degree
    let Vt := transpose V
    let VtV := multiply Vt V
    let Vty := multiply Vt (y.map (fun val => [val]))
    some (solveLinearSystem VtV Vty)

/-- C8.  `fitPolynomialRegression` returns `null` exactly when
`len(X) < degree + 1`; otherwise it returns the coefficient vector obtained
by solving the normal equations `(VᵗV)β = Vᵗy` built from the Vandermonde
matrix, and that vector has length `degree + 1`.  Being a total function, the
embedding also shows no exception is thrown. -/
theorem fitPolynomialRegression_spec (X y : List ℝ) (degree : ℕ) :
    (fitPolynomialRegression X y degree = none ↔ X.length < degree + 1) ∧
    (degree + 1 ≤ X.length →
      fitPolynomialRegression X y degree =
        some (solveLinearSystem
          (multiply (transpose (buildVandermonde X degree)) (buildVandermonde X degree))
          (multiply (transpose (buildVandermonde X degree)) (y.map (fun val => [val]))))) ∧
    (∀ c, fitPolynomialRegression X y degree = some c → c.length = degree + 1) := by
  by_cases h : X.length < degree + 1
  · refine ⟨by simp [fitPolynomialRegression, h], ?_, ?_⟩
    · intro hle
      omega
    · intro c hc
      simp [fitPolynomialRegression, h] at hc
  · have hfit : fitPolynomialRegression X y degree =
        some (solveLinearSystem
          (multiply (transpose (buildVandermonde X degree)) (buildVandermonde X degree))
          (multiply (transpose (buildVandermonde X degree)) (y.map (fun val => [val])))) := by
      simp [fitPolynomialRegression, h]
    refine ⟨by simp [hfit, h], fun _ => hfit, ?_⟩
    intro c hc
    rw [hfit] at hc
    have hc' : c = solveLinearSystem
        (multiply (transpose (buildVandermonde X degree)) (buildVandermonde X degree))
        (multiply (transpose (buildVandermonde X degree)) (y.map (fun val => [val]))) := by
      exact (Option.some_inj.mp hc).symm
    subst hc'
    -- the solution vector has as many entries as `VᵗV` has rows,
    -- namely the `degree + 1` columns of the Vandermonde matrix
    have hX : X ≠ [] := by
      intro hnil
      rw [hnil] at h
      simp at h
    have hVhead : ((buildVandermonde X degree).headD []).length = degree + 1 := by
      cases X with
      | nil => exact absurd rfl hX
      | cons a t => simp [buildVandermonde]
    have hVt : (transpose (buildVandermonde X degree)).length = degree + 1 := by
      simp only [transpose, List.length_map, List.length_range]
      exact hVhead
    have hVtV : (multiply (transpose (buildVandermonde X degree))
        (buildVandermonde X degree)).length = degree + 1 := by
      simp [multiply, hVt]
    simp [solveLinearSystem, hVtV]

/-- Witness for C8 at concrete inputs: one point is not enough for a line,
two points yield a 2-coefficient fit. -/
theorem fitPolynomialRegression_spec_witness :
    (fitPolynomialRegression [(0 : ℝ)] [(1 : ℝ)] 1 = none) ∧
    (∀ c, fitPolynomialRegression [(0 : ℝ), 1] [(1 : ℝ), 2] 1 = some c →
      c.length = 2) :=
  ⟨(fitPolynomialRegression_spec [(0 : ℝ)] [(1 : ℝ)] 1).1.mpr (by simp),
   (fitPolynomialRegression_spec [(0 : ℝ), 1] [(1 : ℝ), 2] 1).2.2⟩

/-! ## Spectral analysis (src/js/fourier_transform.js) -/

/-- The `{re, im}` record returned by `fft`/`dft`. -/
structure DftResult where
  re : List ℝ
  im : List ℝ

/-- Source `computeMagnitudeSpectrum(dftResult)`: single-sided magnitudes
`2·|X[k]|/N` for `k = 0..⌊N/2⌋`, with the DC bin and (for even `N`) the
Nyquist bin halved afterwards. -/
noncomputable def computeMagnitudeSpectrum (dftResult : DftResult) : List ℝ :=
  let N := dftResult.re.length
  let magnitudes := (List.range (N / 2 + 1)).map (fun k =>
    2 * Real.sqrt ((dftResult.re.getD k 0) ^ 2 + (dftResult.im.getD k 0) ^ 2) / N)
  let magnitudes := magnitudes.set 0 (magnitudes.getD 0 0 / 2)
  if N % 2 = 0 then
    magnitudes.set (magnitudes.length - 1) (magnitudes.getD (magnitudes.length - 1) 0 / 2)
  else magnitudes

theorem getD_map_range (n k : ℕ) (f : ℕ → ℝ) (hk : k < n) :
    ((List.range n).map f).getD k 0 = f k := by
  rw [List.getD_eq_getElem?_getD, List.getElem?_map, List.getElem?_range hk]
  rfl

/-- C7.  For an `N`-point transform result (`N ≥ 1`), the magnitude spectrum
has `⌊N/2⌋ + 1` bins; bin `k` holds `2·√(re[k]² + im[k]²)/N` for
`1 ≤ k ≤ N/2 - 1`, while the DC bin and, for even `N`, the Nyquist bin
`k = N/2` hold the halved value `√(re[k]² + im[k]²)/N`. -/
theorem computeMagnitudeSpectrum_spec (d : DftResult) (N : ℕ)
    (hre : d.re.length = N) (him : d.im.length = N) (hN : 1 ≤ N) :
    (computeMagnitudeSpectrum d).length = N / 2 + 1 ∧
    (computeMagnitudeSpectrum d).getD 0 0 =
      Real.sqrt ((d.re.getD 0 0) ^ 2 + (d.im.getD 0 0) ^ 2) / N ∧
    (∀ k, 1 ≤ k → 2 * k + 2 ≤ N →
      (computeMagnitudeSpectrum d).getD k 0 =
        2 * Real.sqrt ((d.re.getD k 0) ^ 2 + (d.im.getD k 0) ^ 2) / N) ∧
    (N % 2 = 0 →
      (computeMagnitudeSpectrum d).getD (N / 2) 0 =
        Real.sqrt ((d.re.getD (N / 2) 0) ^ 2 + (d.im.getD (N / 2) 0) ^ 2) / N) := by
  have hunf : computeMagnitudeSpectrum d =
      (let magnitudes := (List.range (N / 2 + 1)).map (fun k =>
        2 * Real.sqrt ((d.re.getD k 0) ^ 2 + (d.im.getD k 0) ^ 2) / N)
      let magnitudes := magnitudes.set 0 (magnitudes.getD 0 0 / 2)
      if N % 2 = 0 then
        magnitudes.set (magnitudes.length - 1) (magnitudes.getD (magnitudes.length - 1) 0 / 2)
      else magnitudes) := by
    rw [computeMagnitudeSpectrum, hre]
  set f : ℕ → ℝ :=
    fun k => 2 * Real.sqrt ((d.re.getD k 0) ^ 2 + (d.im.getD k 0) ^ 2) / N with hf
  set mags0 : List ℝ := (List.range (N / 2 + 1)).map f with hmags0
  set mags1 : List ℝ := mags0.set 0 (mags0.getD 0 0 / 2) with hmags1
  have hlen0 : mags0.length = N / 2 + 1 := by
    rw [hmags0, List.length_map, List.length_range]
  have hlen1 : mags1.length = N / 2 + 1 := by
    rw [hmags1, List.length_set, hlen0]
  have hunf' : computeMagnitudeSpectrum d =
      if N % 2 = 0 then
        mags1.set (mags1.length - 1) (mags1.getD (mags1.length - 1) 0 / 2)
      else mags1 := hunf
  -- values of the doubled list
  have hmags0getD : ∀ k, k < N / 2 + 1 → mags0.getD k 0 = f k := by
    intro k hk
    rw [hmags0]
    exact getD_map_range _ _ _ hk
  -- values after halving the DC bin
  have hmags1get0 : mags1.getD 0 0 = f 0 / 2 := by
    rw [hmags1, List.getD_eq_getElem?_getD,
      List.getElem?_set_self (by rw [hlen0]; omega)]
    simp only [Option.getD_some]
    rw [hmags0getD 0 (by omega)]
  have hmags1getk : ∀ k, 1 ≤ k → k < N / 2 + 1 → mags1.getD k 0 = f k := by
    intro k hk1 hk2
    rw [hmags1, List.getD_eq_getElem?_getD, List.getElem?_set_ne (by omega)]
    rw [← List.getD_eq_getElem?_getD]
    exact hmags0getD k hk2
  have hdc : f 0 / 2 = Real.sqrt ((d.re.getD 0 0) ^ 2 + (d.im.getD 0 0) ^ 2) / N := by
    rw [hf]
    ring
  refine ⟨?_, ?_, ?_, ?_⟩
  · rw [hunf']
    by_cases hpar : N % 2 = 0 <;> simp [hpar, hlen1, List.length_set]
  · rw [hunf']
    by_cases hpar : N % 2 = 0
    · rw [if_pos hpar]
      have hne : mags1.length - 1 ≠ 0 := by
        rw [hlen1]
        have : 2 ≤ N := by omega
        have : 1 ≤ N / 2 := Nat.one_le_div_iff (by omega) |>.mpr this
        omega
      rw [List.getD_eq_getElem?_getD, List.getElem?_set_ne hne,
        ← List.getD_eq_getElem?_getD, hmags1get0, hdc]
    · rw [if_neg hpar, hmags1get0, hdc]
  · intro k hk1 hk2
    have hklt : k < N / 2 := by omega
    rw [hunf']
    by_cases hpar : N % 2 = 0
    · rw [if_pos hpar]
      have hne : mags1.length - 1 ≠ k := by rw [hlen1]; omega
      rw [List.getD_eq_getElem?_getD, List.getElem?_set_ne hne,
        ← List.getD_eq_getElem?_getD]
      exact hmags1getk k hk1 (by omega)
    · rw [if_neg hpar]
      exact hmags1getk k hk1 (by omega)
  · intro hpar
    rw [hunf', if_pos hpar]
    have h2N : 2 ≤ N := by omega
    have hhalf : 1 ≤ N / 2 := Nat.one_le_div_iff (by omega) |>.mpr h2N
    have hidx : mags1.length - 1 = N / 2 := by rw [hlen1]; omega
    rw [hidx]
    rw [List.getD_eq_getElem?_getD, List.getElem?_set_self (by rw [hlen1]; omega)]
    have : mags1.getD (N / 2) 0 = f (N / 2) :=
      hmags1getk (N / 2) hhalf (by omega)
    simp only [Option.getD_some]
    rw [this, hf]
    ring

/-- Witness for C7 at a concrete input (`N = 4`). -/
theorem computeMagnitudeSpectrum_spec_witness :
    let d : DftResult := ⟨[(4 : ℝ), 0, 0, 0], [(0 : ℝ), 0, 0, 0]⟩
    (computeMagnitudeSpectrum d).length = 4 / 2 + 1 ∧
    (computeMagnitudeSpectrum d).getD 0 0 =
      Real.sqrt ((d.re.getD 0 0) ^ 2 + (d.im.getD 0 0) ^ 2) / 4 ∧
    (∀ k, 1 ≤ k → 2 * k + 2 ≤ 4 →
      (computeMagnitudeSpectrum d).getD k 0 =
        2 * Real.sqrt ((d.re.getD k 0) ^ 2 + (d.im.getD k 0) ^ 2) / 4) ∧
    (4 % 2 = 0 →
      (computeMagnitudeSpectrum d).getD (4 / 2) 0 =
        Real.sqrt ((d.re.getD (4 / 2) 0) ^ 2 + (d.im.getD (4 / 2) 0) ^ 2) / 4) := by
  have h := computeMagnitudeSpectrum_spec ⟨[(4 : ℝ), 0, 0, 0], [(0 : ℝ), 0, 0, 0]⟩ 4
    (by rfl) (by rfl) (by decide)
  exact_mod_cast h

/-! ## The direct DFT and the radix-2 FFT (src/js/fourier_transform.js) -/

/-- Source `dft(signal)`: the direct O(N²) summation, with
`angle = -2π·k·n/N`, `re[k] = Σ signal[n]·cos(angle)` and
`im[k] = Σ signal[n]·sin(angle)`. -/
noncomputable def dft (signal : List ℝ) : DftResult :=
  let N := signal.length
  { re := (List.range N).map (fun k : ℕ => ∑ n ∈ Finset.range N,
      signal.getD n 0 * Real.cos (-2 * Real.pi * (k : ℝ) * (n : ℝ) / (N : ℝ))),
    im := (List.range N).map (fun k : ℕ => ∑ n ∈ Finset.range N,
      signal.getD n 0 * Real.sin (-2 * Real.pi * (k : ℝ) * (n : ℝ) / (N : ℝ))) }

/-- The bit-reversal `while (bit > 0)` loop of `fft`: starting from `j = 0`
and `bit = N >> 1`, it ors `bit` into `j` whenever the low bit of the running
`ii` is set, then shifts both. -/
def bitRevLoop (j bit ii : ℕ) : ℕ :=
  if bit = 0 then j
  else bitRevLoop (if ii &&& 1 = 1 then j ||| bit else j) (bit / 2) (ii / 2)
termination_by bit
decreasing_by omega

/-- The full bit-reversal index computation of `fft` for one input index. -/
def bitRev (N i : ℕ) : ℕ := bitRevLoop 0 (N / 2) i

/-- The bit-reverse copy loop of `fft`: `re[j] = signal[i]` for every `i`,
with `j = bitRev N i`.  The JavaScript array starts with holes
(`new Array(N)`); for a power-of-two `N` the bit reversal is a bijection on
`[0, N)`, so every cell below `N` is written and the model's zero initial
value is never observed there. -/
noncomputable def bitRevCopy (signal : List ℝ) : ℕ → ℝ :=
  (List.range signal.length).foldl
    (fun re i => Function.update re (bitRev signal.length i) (signal.getD i 0))
    (fun _ => 0)

/-- One butterfly of `fft` at stage width `step`, group base `group` and
offset `i`: with `angle = (-2π/step)·i`, combine the entries at
`group + i` and `group + i + step/2` in place. -/
noncomputable def butterfly (step group i : ℕ) (st : (ℕ → ℝ) × (ℕ → ℝ)) :
    (ℕ → ℝ) × (ℕ → ℝ) :=
  let halfStep := step / 2
  let angle : ℝ := -2 * Real.pi / step * i
  let c := Real.cos angle
  let s := Real.sin angle
  let evenRe := st.1 (group + i)
  let evenIm := st.2 (group + i)
  let oddRe := st.1 (group + i + halfStep) * c - st.2 (group + i + halfStep) * s
  let oddIm := st.1 (group + i + halfStep) * s + st.2 (group + i + halfStep) * c
  (Function.update (Function.update st.1 (group + i) (evenRe + oddRe))
      (group + i + halfStep) (evenRe - oddRe),
   Function.update (Function.update st.2 (group + i) (evenIm + oddIm))
      (group + i + halfStep) (evenIm - oddIm))

/-- One stage of `fft` at width `step`: the two inner loops
`for (group = 0; group < N; group += step)` and
`for (i = 0; i < halfStep; i++)`. -/
noncomputable def fftStage (N step : ℕ) (st : (ℕ → ℝ) × (ℕ → ℝ)) :
    (ℕ → ℝ) × (ℕ → ℝ) :=
  ((List.range (N / step)).map (fun g => g * step)).foldl
    (fun st group =>
      (List.range (step / 2)).foldl (fun st i => butterfly step group i st) st)
    st

/-- The outer loop `for (step = 2; step <= N; step <<= 1)` of `fft`:
stage widths `2, 4, ..., 2^⌊log2 N⌋`. -/
noncomputable def fftStages (N : ℕ) (st : (ℕ → ℝ) × (ℕ → ℝ)) :
    (ℕ → ℝ) × (ℕ → ℝ) :=
  ((List.range N.log2).map (fun s => 2 ^ (s + 1))).foldl
    (fun st step => fftStage N step st) st

/-- Source `fft(signal)` from src/js/fourier_transform.js: fall back to `dft` when
`N & (N - 1)` is nonzero, otherwise run the bit-reverse copy followed by the
butterfly stages. -/
noncomputable def fft (signal : List ℝ) : DftResult :=
  let N := signal.length
  if N &&& (N - 1) ≠ 0 then dft signal
  else
    let st := fftStages N (bitRevCopy signal, fun _ => 0)
    { re := (List.range N).map st.1, im := (List.range N).map st.2 }

/-! ### Bit-reversal arithmetic -/

/-- Reference form of reversal of the low `n` bits of a number. -/
def revBits : ℕ → ℕ → ℕ
  | 0, _ => 0
  | n + 1, x => x % 2 * 2 ^ n + revBits n (x / 2)

theorem revBits_lt (n x : ℕ) : revBits n x < 2 ^ n := by
  induction n generalizing x with
  | zero => simp [revBits]
  | succ n ih =>
    have h1 : x % 2 ≤ 1 := by omega
    have h2 : revBits n (x / 2) < 2 ^ n := ih (x / 2)
    have h3 : x % 2 * 2 ^ n ≤ 2 ^ n := by
      calc x % 2 * 2 ^ n ≤ 1 * 2 ^ n := Nat.mul_le_mul_right _ h1
      _ = 2 ^ n := one_mul _
    have : revBits (n + 1) x = x % 2 * 2 ^ n + revBits n (x / 2) := rfl
    rw [this, pow_succ]
    omega

theorem revBits_zero_val (n : ℕ) : revBits n 0 = 0 := by
  induction n with
  | zero => rfl
  | succ n ih => simp [revBits, ih]

theorem testBit_revBits (n : ℕ) : ∀ x s : ℕ,
    (revBits n x).testBit s = if s < n then x.testBit (n - 1 - s) else false := by
  induction n with
  | zero =>
    intro x s
    simp [revBits]
  | succ n ih =>
    intro x s
    have hdef : revBits (n + 1) x = 2 ^ n * (x % 2) + revBits n (x / 2) := by
      show x % 2 * 2 ^ n + revBits n (x / 2) = _
      ring
    rw [hdef, Nat.testBit_mul_pow_two_add (x % 2) (revBits_lt n (x / 2)) s]
    by_cases hs : s < n
    · rw [if_pos hs, ih (x / 2) s, if_pos hs, if_pos (by omega)]
      rw [Nat.testBit_div_two]
      congr 1
      omega
    · rw [if_neg hs]
      by_cases hsn : s = n
      · rw [hsn, if_pos (by omega)]
        have h0 : n - n = 0 := by omega
        have hdc : n + 1 - 1 - n = 0 := by omega
        rw [h0, hdc, Nat.testBit_zero, Nat.testBit_zero,
          Nat.mod_mod_of_dvd x (dvd_refl 2)]
      · rw [if_neg (by omega)]
        apply Nat.testBit_lt_two_pow
        have h1 : x % 2 < 2 := Nat.mod_lt x (by omega)
        have h2 : (2 : ℕ) ≤ 2 ^ (s - n) := by
          have : 1 ≤ s - n := by omega
          calc (2 : ℕ) = 2 ^ 1 := (pow_one 2).symm
          _ ≤ 2 ^ (s - n) := Nat.pow_le_pow_right (by omega) this
        omega

theorem revBits_involutive (n : ℕ) (x : ℕ) (hx : x < 2 ^ n) :
    revBits n (revBits n x) = x := by
  apply Nat.eq_of_testBit_eq
  intro s
  rw [testBit_revBits]
  by_cases hs : s < n
  · rw [if_pos hs, testBit_revBits, if_pos (by omega)]
    congr 1
    omega
  · rw [if_neg hs]
    symm
    apply Nat.testBit_lt_two_pow
    calc x < 2 ^ n := hx
    _ ≤ 2 ^ s := Nat.pow_le_pow_right (by omega) (by omega)

theorem revBits_injOn (n : ℕ) {x y : ℕ} (hx : x < 2 ^ n) (hy : y < 2 ^ n)
    (h : revBits n x = revBits n y) : x = y := by
  have := revBits_involutive n x hx
  rw [h, revBits_involutive n y hy] at this
  exact this.symm

theorem bitRevLoop_eq (n : ℕ) : ∀ j ii : ℕ,
    bitRevLoop (j * 2 ^ (n + 1)) (2 ^ n) ii = j * 2 ^ (n + 1) + revBits (n + 1) ii := by
  induction n with
  | zero =>
    intro j ii
    rw [bitRevLoop, if_neg (by norm_num)]
    rw [bitRevLoop, if_pos (by norm_num)]
    rw [Nat.and_one_is_mod]
    have hrev : revBits (0 + 1) ii = ii % 2 := by
      show ii % 2 * 2 ^ 0 + revBits 0 (ii / 2) = ii % 2
      simp [revBits]
    rw [hrev]
    by_cases hpar : ii % 2 = 1
    · rw [if_pos hpar, hpar]
      have h1 : j * 2 ^ (0 + 1) = 2 ^ (0 + 1) * j := by ring
      rw [h1, ← Nat.mul_add_lt_is_or (show (2 : ℕ) ^ 0 < 2 ^ (0 + 1) by norm_num) j]
      ring
    · rw [if_neg hpar]
      have h0 : ii % 2 = 0 := by omega
      rw [h0]
      simp
  | succ n ih =>
    intro j ii
    have hbit : ¬ ((2 : ℕ) ^ (n + 1) = 0) := by positivity
    rw [bitRevLoop, if_neg hbit]
    have hdiv : (2 : ℕ) ^ (n + 1) / 2 = 2 ^ n := by
      rw [pow_succ]
      exact Nat.mul_div_cancel _ (by norm_num)
    rw [hdiv, Nat.and_one_is_mod]
    have hrev : revBits (n + 1 + 1) ii = ii % 2 * 2 ^ (n + 1) + revBits (n + 1) (ii / 2) :=
      rfl
    by_cases hpar : ii % 2 = 1
    · rw [if_pos hpar]
      have hor : j * 2 ^ (n + 1 + 1) ||| 2 ^ (n + 1) = (2 * j + 1) * 2 ^ (n + 1) := by
        have h1 : j * 2 ^ (n + 1 + 1) = 2 ^ (n + 1 + 1) * j := by ring
        have h2 : (2 : ℕ) ^ (n + 1) < 2 ^ (n + 1 + 1) := by
          exact Nat.pow_lt_pow_right (by omega) (by omega)
        rw [h1, ← Nat.mul_add_lt_is_or h2 j]
        ring
      rw [hor, ih (2 * j + 1) (ii / 2), hrev, hpar]
      ring
    · rw [if_neg hpar]
      have h0 : ii % 2 = 0 := by omega
      have hj : j * 2 ^ (n + 1 + 1) = (2 * j) * 2 ^ (n + 1) := by ring
      rw [hj, ih (2 * j) (ii / 2), hrev, h0]
      ring

/-- On a power-of-two size, the source's bit-reversal computes `revBits`. -/
theorem bitRev_two_pow (n i : ℕ) : bitRev (2 ^ n) i = revBits n i := by
  cases n with
  | zero =>
    show bitRevLoop 0 (2 ^ 0 / 2) i = revBits 0 i
    norm_num
    rw [bitRevLoop, if_pos rfl]
    simp [revBits]
  | succ n =>
    show bitRevLoop 0 (2 ^ (n + 1) / 2) i = revBits (n + 1) i
    have hdiv : (2 : ℕ) ^ (n + 1) / 2 = 2 ^ n := by
      rw [pow_succ]
      exact Nat.mul_div_cancel _ (by norm_num)
    rw [hdiv]
    have := bitRevLoop_eq n 0 i
    simpa using this

/-! ### The bit-reverse copy as a function -/

theorem foldl_update_ne (key : ℕ → ℕ) (val : ℕ → ℝ) (L : List ℕ) (f0 : ℕ → ℝ)
    (j : ℕ) (h : ∀ i ∈ L, key i ≠ j) :
    (L.foldl (fun f i => Function.update f (key i) (val i)) f0) j = f0 j := by
  induction L generalizing f0 with
  | nil => rfl
  | cons a L ih =>
    simp only [List.foldl_cons]
    rw [ih _ (fun i hi => h i (by simp [hi]))]
    exact Function.update_noteq (fun hh => (h a (by simp)) hh.symm) _ _

theorem foldl_update_eq (key : ℕ → ℕ) (val : ℕ → ℝ) (L : List ℕ) (hL : L.Nodup)
    (f0 : ℕ → ℝ) (j i0 : ℕ) (hmem : i0 ∈ L) (hkey : key i0 = j)
    (huniq : ∀ i ∈ L, key i = j → i = i0) :
    (L.foldl (fun f i => Function.update f (key i) (val i)) f0) j = val i0 := by
  induction L generalizing f0 with
  | nil => cases hmem
  | cons a L ih =>
    simp only [List.foldl_cons]
    rcases List.mem_cons.mp hmem with heq | hmem'
    · have hnotin : ∀ i ∈ L, key i ≠ j := by
        intro i hi hki
        have hii : i = i0 := huniq i (by simp [hi]) hki
        rw [hii, heq] at hi
        exact (List.nodup_cons.mp hL).1 hi
      rw [foldl_update_ne key val L _ j hnotin, ← heq, hkey]
      exact Function.update_same _ _ _
    · exact ih (List.nodup_cons.mp hL).2 _ hmem'
        (fun i hi hk => huniq i (by simp [hi]) hk)

/-- On a power-of-two length, the bit-reverse copy of `fft` places
`signal[revBits n j]` at position `j`. -/
theorem bitRevCopy_apply (signal : List ℝ) (n : ℕ) (hlen : signal.length = 2 ^ n)
    (j : ℕ) (hj : j < 2 ^ n) :
    bitRevCopy signal j = signal.getD (revBits n j) 0 := by
  unfold bitRevCopy
  rw [hlen]
  exact foldl_update_eq (fun i => bitRev (2 ^ n) i) (fun i => signal.getD i 0)
    (List.range (2 ^ n)) (List.nodup_range _) (fun _ => 0) j (revBits n j)
    (List.mem_range.mpr (revBits_lt n j))
    (by
      simp only [bitRev_two_pow]
      exact revBits_involutive n j hj)
    (by
      intro i hi hk
      simp only [bitRev_two_pow] at hk
      have hilt : i < 2 ^ n := List.mem_range.mp hi
      have := revBits_involutive n i hilt
      rw [hk] at this
      exact this.symm)

/-! ### The complex view of the butterfly state -/

/-- The complex number held at position `k` of the split `re`/`im` state. -/
noncomputable def toC (st : (ℕ → ℝ) × (ℕ → ℝ)) (k : ℕ) : ℂ :=
  ⟨st.1 k, st.2 k⟩

/-- Point on the unit circle at angle `θ`. -/
noncomputable def cexp (θ : ℝ) : ℂ := Complex.exp ((θ : ℂ) * Complex.I)

/-- The `L`-point DFT of the sequence `y`, in complex form, with the
twiddle convention `e^{-2πi·kt/L}` of the source. -/
noncomputable def dftC (L : ℕ) (y : ℕ → ℂ) (k : ℕ) : ℂ :=
  ∑ t ∈ Finset.range L, y t * cexp (-2 * Real.pi / L * (k * t))

theorem cexp_re (θ : ℝ) : (cexp θ).re = Real.cos θ :=
  Complex.exp_ofReal_mul_I_re θ

theorem cexp_im (θ : ℝ) : (cexp θ).im = Real.sin θ :=
  Complex.exp_ofReal_mul_I_im θ

theorem cexp_add (a b : ℝ) : cexp (a + b) = cexp a * cexp b := by
  unfold cexp
  rw [← Complex.exp_add]
  congr 1
  push_cast
  ring

theorem cexp_zero : cexp 0 = 1 := by
  unfold cexp
  simp

theorem cexp_neg_two_pi_nat (t : ℕ) : cexp (-2 * Real.pi * t) = 1 := by
  unfold cexp
  have harg : ((-2 * Real.pi * t : ℝ) : ℂ) * Complex.I =
      ((-(t : ℤ) : ℤ) : ℂ) * (2 * (Real.pi : ℂ) * Complex.I) := by
    push_cast
    ring
  rw [harg]
  exact Complex.exp_int_mul_two_pi_mul_I (-(t : ℤ))

theorem cexp_neg_pi : cexp (-Real.pi) = -1 := by
  apply Complex.ext
  · rw [cexp_re]
    simp [Real.cos_pi]
  · rw [cexp_im]
    simp [Real.sin_pi]

/-- The butterfly, seen through `toC`: position `group + i` receives
`even + e·odd`, position `group + i + step/2` receives `even - e·odd`,
everything else is untouched. -/
theorem toC_butterfly (step group i : ℕ) (hstep : 0 < step / 2)
    (st : (ℕ → ℝ) × (ℕ → ℝ)) (k : ℕ) :
    toC (butterfly step group i st) k =
      if k = group + i then
        toC st (group + i) +
          cexp (-2 * Real.pi / step * i) * toC st (group + i + step / 2)
      else if k = group + i + step / 2 then
        toC st (group + i) -
          cexp (-2 * Real.pi / step * i) * toC st (group + i + step / 2)
      else toC st k := by
  have hne : group + i ≠ group + i + step / 2 := by omega
  by_cases hu : k = group + i
  · rw [if_pos hu, hu]
    apply Complex.ext <;>
      simp only [toC, butterfly, Function.update_noteq hne, Function.update_same,
        Complex.add_re, Complex.add_im, Complex.mul_re, Complex.mul_im,
        cexp_re, cexp_im] <;>
      ring
  · rw [if_neg hu]
    by_cases hv : k = group + i + step / 2
    · rw [if_pos hv, hv]
      apply Complex.ext <;>
        simp only [toC, butterfly, Function.update_same,
          Complex.sub_re, Complex.sub_im, Complex.mul_re, Complex.mul_im,
          cexp_re, cexp_im] <;>
        ring
    · rw [if_neg hv]
      apply Complex.ext <;>
        simp only [toC, butterfly,
          Function.update_noteq hv, Function.update_noteq hu]

/-! ### Decimation-in-time identities for the complex DFT -/

theorem sum_range_even_odd (L : ℕ) (f : ℕ → ℂ) :
    ∑ t ∈ Finset.range (2 * L), f t =
      (∑ t ∈ Finset.range L, f (2 * t)) + ∑ t ∈ Finset.range L, f (2 * t + 1) := by
  induction L with
  | zero => simp
  | succ L ih =>
    have h2 : 2 * (L + 1) = 2 * L + 1 + 1 := by ring
    rw [h2]
    simp only [Finset.sum_range_succ]
    rw [ih]
    ring

/-- Even/odd split of the `2L`-point DFT at a low output index. -/
theorem dftC_split_low (L : ℕ) (hL : 0 < L) (y : ℕ → ℂ) (k : ℕ) :
    dftC (2 * L) y k =
      dftC L (fun t => y (2 * t)) k +
        cexp (-2 * Real.pi / (2 * (L : ℝ)) * k) * dftC L (fun t => y (2 * t + 1)) k := by
  have hLR : ((L : ℝ)) ≠ 0 := by positivity
  unfold dftC
  rw [sum_range_even_odd]
  congr 1
  · apply Finset.sum_congr rfl
    intro t ht
    congr 1
    have harg : (-2 * Real.pi / ((2 * L : ℕ) : ℝ) * ((k : ℝ) * ((2 * t : ℕ) : ℝ))) =
        (-2 * Real.pi / (L : ℝ) * ((k : ℝ) * (t : ℝ))) := by
      push_cast
      field_simp
      ring
    push_cast at harg ⊢
    rw [harg]
  · rw [Finset.mul_sum]
    apply Finset.sum_congr rfl
    intro t ht
    have harg : (-2 * Real.pi / ((2 * L : ℕ) : ℝ) * ((k : ℝ) * ((2 * t + 1 : ℕ) : ℝ))) =
        (-2 * Real.pi / (2 * (L : ℝ)) * (k : ℝ)) +
          (-2 * Real.pi / (L : ℝ) * ((k : ℝ) * (t : ℝ))) := by
      push_cast
      field_simp
      ring
    push_cast at harg ⊢
    rw [harg, cexp_add]
    ring

/-- Even/odd split of the `2L`-point DFT at a high output index `k + L`. -/
theorem dftC_split_high (L : ℕ) (hL : 0 < L) (y : ℕ → ℂ) (k : ℕ) :
    dftC (2 * L) y (k + L) =
      dftC L (fun t => y (2 * t)) k -
        cexp (-2 * Real.pi / (2 * (L : ℝ)) * k) * dftC L (fun t => y (2 * t + 1)) k := by
  have hLR : ((L : ℝ)) ≠ 0 := by positivity
  unfold dftC
  rw [sum_range_even_odd]
  have h1 : (∑ t ∈ Finset.range L,
      y (2 * t) * cexp (-2 * Real.pi / ((2 * L : ℕ) : ℝ) * (((k + L : ℕ) : ℝ) * ((2 * t : ℕ) : ℝ)))) =
      ∑ t ∈ Finset.range L, y (2 * t) * cexp (-2 * Real.pi / (L : ℝ) * ((k : ℝ) * (t : ℝ))) := by
    apply Finset.sum_congr rfl
    intro t ht
    congr 1
    have harg : (-2 * Real.pi / ((2 * L : ℕ) : ℝ) * (((k + L : ℕ) : ℝ) * ((2 * t : ℕ) : ℝ))) =
        (-2 * Real.pi / (L : ℝ) * ((k : ℝ) * (t : ℝ))) + (-2 * Real.pi * (t : ℝ)) := by
      push_cast
      field_simp
      ring
    rw [harg, cexp_add, cexp_neg_two_pi_nat]
    rw [mul_one]
  have h2 : (∑ t ∈ Finset.range L,
      y (2 * t + 1) * cexp (-2 * Real.pi / ((2 * L : ℕ) : ℝ) * (((k + L : ℕ) : ℝ) * ((2 * t + 1 : ℕ) : ℝ)))) =
      -(cexp (-2 * Real.pi / (2 * (L : ℝ)) * k) *
        ∑ t ∈ Finset.range L, y (2 * t + 1) * cexp (-2 * Real.pi / (L : ℝ) * ((k : ℝ) * (t : ℝ)))) := by
    rw [Finset.mul_sum, ← Finset.sum_neg_distrib]
    apply Finset.sum_congr rfl
    intro t ht
    have harg : (-2 * Real.pi / ((2 * L : ℕ) : ℝ) * (((k + L : ℕ) : ℝ) * ((2 * t + 1 : ℕ) : ℝ))) =
        (((-2 * Real.pi / (2 * (L : ℝ)) * k) +
          (-2 * Real.pi / (L : ℝ) * ((k : ℝ) * (t : ℝ)))) +
          ((-2 * Real.pi * (t : ℝ)) + (-Real.pi))) := by
      push_cast
      field_simp
      ring
    rw [harg, cexp_add, cexp_add, cexp_add, cexp_neg_two_pi_nat, cexp_neg_pi]
    ring
  push_cast at h1 h2 ⊢
  rw [h1, h2]
  ring

/-! ### The butterfly stages, block by block -/

/-- Positions outside `{g+i, g+i+L : i < m}` are untouched by the inner
butterfly loop. -/
theorem innerFold_frame (L g : ℕ) (hL : 0 < L) (st : (ℕ → ℝ) × (ℕ → ℝ))
    (m : ℕ) (k : ℕ)
    (hk : ∀ i, i < m → k ≠ g + i ∧ k ≠ g + i + L) :
    toC ((List.range m).foldl (fun s i => butterfly (2 * L) g i s) st) k = toC st k := by
  induction m with
  | zero => rfl
  | succ m ih =>
    rw [List.range_succ, List.foldl_append]
    simp only [List.foldl_cons, List.foldl_nil]
    have hhalf : 2 * L / 2 = L := by omega
    rw [toC_butterfly (2 * L) g m (by omega), hhalf]
    rw [if_neg (hk m (by omega)).1, if_neg (hk m (by omega)).2]
    exact ih (fun i hi => hk i (by omega))

/-- Values written by the inner butterfly loop: position `g+i` receives
`even + e_i·odd` and position `g+i+L` receives `even - e_i·odd`, where
`even`/`odd` are the incoming values at `g+i` and `g+i+L`. -/
theorem innerFold_spec (L g : ℕ) (hL : 0 < L) (st : (ℕ → ℝ) × (ℕ → ℝ)) :
    ∀ m, m ≤ L → ∀ i, i < m →
      (toC ((List.range m).foldl (fun s i => butterfly (2 * L) g i s) st) (g + i) =
        toC st (g + i) +
          cexp (-2 * Real.pi / ((2 * L : ℕ) : ℝ) * i) * toC st (g + i + L)) ∧
      (toC ((List.range m).foldl (fun s i => butterfly (2 * L) g i s) st) (g + i + L) =
        toC st (g + i) -
          cexp (-2 * Real.pi / ((2 * L : ℕ) : ℝ) * i) * toC st (g + i + L)) := by
  intro m
  induction m with
  | zero => intro _ i hi; omega
  | succ m ih =>
    intro hm i hi
    have hmL : m < L := by omega
    rw [List.range_succ, List.foldl_append]
    simp only [List.foldl_cons, List.foldl_nil]
    have hhalf : 2 * L / 2 = L := by omega
    by_cases him : i = m
    · -- the butterfly processed last writes exactly this pair
      subst him
      have hframe1 : toC ((List.range i).foldl (fun s i => butterfly (2 * L) g i s) st)
          (g + i) = toC st (g + i) :=
        innerFold_frame L g hL st i (g + i) (fun i' hi' => by omega)
      have hframe2 : toC ((List.range i).foldl (fun s i => butterfly (2 * L) g i s) st)
          (g + i + L) = toC st (g + i + L) :=
        innerFold_frame L g hL st i (g + i + L) (fun i' hi' => by omega)
      constructor
      · rw [toC_butterfly (2 * L) g i (by omega), hhalf, if_pos rfl, hframe1, hframe2]
      · rw [toC_butterfly (2 * L) g i (by omega), hhalf,
          if_neg (by omega), if_pos rfl, hframe1, hframe2]
    · -- positions of earlier butterflies are untouched by the last one
      have hiltm : i < m := by omega
      constructor
      · rw [toC_butterfly (2 * L) g m (by omega), hhalf,
          if_neg (by omega), if_neg (by omega)]
        exact ((ih (by omega) i hiltm).1)
      · rw [toC_butterfly (2 * L) g m (by omega), hhalf,
          if_neg (by omega), if_neg (by omega)]
        exact ((ih (by omega) i hiltm).2)

/-- Positions outside the processed blocks are untouched by the group loop. -/
theorem groupFold_frame (L : ℕ) (hL : 0 < L) (st : (ℕ → ℝ) × (ℕ → ℝ)) (G : ℕ)
    (k : ℕ) (hk : ∀ b, b < G → k < b * (2 * L) ∨ b * (2 * L) + 2 * L ≤ k) :
    toC ((List.range G).foldl
      (fun st b => (List.range L).foldl
        (fun s i => butterfly (2 * L) (b * (2 * L)) i s) st) st) k = toC st k := by
  induction G with
  | zero => rfl
  | succ G ih =>
    rw [List.range_succ, List.foldl_append]
    simp only [List.foldl_cons, List.foldl_nil]
    rw [innerFold_frame L (G * (2 * L)) hL _ L k
      (by
        intro i hi
        have := hk G (by omega)
        omega)]
    exact ih (fun b hb => hk b (by omega))

/-- Values written by the group loop of one stage, for every block `b < G`. -/
theorem groupFold_spec (L : ℕ) (hL : 0 < L) (st : (ℕ → ℝ) × (ℕ → ℝ)) (G : ℕ) :
    ∀ b, b < G → ∀ i, i < L →
      (toC ((List.range G).foldl
          (fun st b => (List.range L).foldl
            (fun s i => butterfly (2 * L) (b * (2 * L)) i s) st) st) (b * (2 * L) + i) =
        toC st (b * (2 * L) + i) +
          cexp (-2 * Real.pi / ((2 * L : ℕ) : ℝ) * i) * toC st (b * (2 * L) + i + L)) ∧
      (toC ((List.range G).foldl
          (fun st b => (List.range L).foldl
            (fun s i => butterfly (2 * L) (b * (2 * L)) i s) st) st) (b * (2 * L) + i + L) =
        toC st (b * (2 * L) + i) -
          cexp (-2 * Real.pi / ((2 * L : ℕ) : ℝ) * i) * toC st (b * (2 * L) + i + L)) := by
  induction G with
  | zero => intro b hb; omega
  | succ G ih =>
    intro b hb i hi
    rw [List.range_succ, List.foldl_append]
    simp only [List.foldl_cons, List.foldl_nil]
    by_cases hbG : b = G
    · -- the block written by the last group iteration
      subst hbG
      have hspec := innerFold_spec L (b * (2 * L)) hL
        ((List.range b).foldl
          (fun st b => (List.range L).foldl
            (fun s i => butterfly (2 * L) (b * (2 * L)) i s) st) st) L le_rfl i hi
      have hframe1 : toC ((List.range b).foldl
          (fun st b => (List.range L).foldl
            (fun s i => butterfly (2 * L) (b * (2 * L)) i s) st) st) (b * (2 * L) + i) =
          toC st (b * (2 * L) + i) :=
        groupFold_frame L hL st b _ (by
          intro b' hb'
          have hble : b' + 1 ≤ b := by omega
          have : (b' + 1) * (2 * L) ≤ b * (2 * L) := Nat.mul_le_mul_right _ hble
          right
          calc b' * (2 * L) + 2 * L = (b' + 1) * (2 * L) := by ring
          _ ≤ b * (2 * L) := this
          _ ≤ b * (2 * L) + i := by omega)
      have hframe2 : toC ((List.range b).foldl
          (fun st b => (List.range L).foldl
            (fun s i => butterfly (2 * L) (b * (2 * L)) i s) st) st) (b * (2 * L) + i + L) =
          toC st (b * (2 * L) + i + L) :=
        groupFold_frame L hL st b _ (by
          intro b' hb'
          have hble : b' + 1 ≤ b := by omega
          have : (b' + 1) * (2 * L) ≤ b * (2 * L) := Nat.mul_le_mul_right _ hble
          right
          calc b' * (2 * L) + 2 * L = (b' + 1) * (2 * L) := by ring
          _ ≤ b * (2 * L) := this
          _ ≤ b * (2 * L) + i + L := by omega)
      rw [hframe1, hframe2] at hspec
      exact hspec
    · -- blocks already processed are untouched by the last group iteration
      have hblt : b < G := by omega
      have hup : (b + 1) * (2 * L) ≤ G * (2 * L) :=
        Nat.mul_le_mul_right _ (by omega)
      have hfr1 : ∀ i', i' < L →
          b * (2 * L) + i ≠ G * (2 * L) + i' ∧
          b * (2 * L) + i ≠ G * (2 * L) + i' + L := by
        intro i' hi'
        have hlt : b * (2 * L) + i < (b + 1) * (2 * L) := by
          have : b * (2 * L) + i < b * (2 * L) + 2 * L := by omega
          calc b * (2 * L) + i < b * (2 * L) + 2 * L := this
          _ = (b + 1) * (2 * L) := by ring
        omega
      have hfr2 : ∀ i', i' < L →
          b * (2 * L) + i + L ≠ G * (2 * L) + i' ∧
          b * (2 * L) + i + L ≠ G * (2 * L) + i' + L := by
        intro i' hi'
        have hlt : b * (2 * L) + i + L < (b + 1) * (2 * L) := by
          have : b * (2 * L) + i + L < b * (2 * L) + 2 * L := by omega
          calc b * (2 * L) + i + L < b * (2 * L) + 2 * L := this
          _ = (b + 1) * (2 * L) := by ring
        omega
      constructor
      · rw [innerFold_frame L (G * (2 * L)) hL _ L _ hfr1]
        exact (ih b hblt i hi).1
      · rw [innerFold_frame L (G * (2 * L)) hL _ L _ hfr2]
        exact (ih b hblt i hi).2

/-- One `fftStage` at width `2L`, expressed block by block. -/
theorem fftStage_spec (N L : ℕ) (hL : 0 < L) (st : (ℕ → ℝ) × (ℕ → ℝ))
    (b i : ℕ) (hb : b < N / (2 * L)) (hi : i < L) :
    (toC (fftStage N (2 * L) st) (b * (2 * L) + i) =
      toC st (b * (2 * L) + i) +
        cexp (-2 * Real.pi / ((2 * L : ℕ) : ℝ) * i) * toC st (b * (2 * L) + i + L)) ∧
    (toC (fftStage N (2 * L) st) (b * (2 * L) + i + L) =
      toC st (b * (2 * L) + i) -
        cexp (-2 * Real.pi / ((2 * L : ℕ) : ℝ) * i) * toC st (b * (2 * L) + i + L)) := by
  have hunf : fftStage N (2 * L) st =
      (List.range (N / (2 * L))).foldl
        (fun st b => (List.range L).foldl
          (fun s i => butterfly (2 * L) (b * (2 * L)) i s) st) st := by
    unfold fftStage
    rw [List.foldl_map]
    have hhalf : 2 * L / 2 = L := by omega
    simp only [hhalf]
  rw [hunf]
  exact groupFold_spec L hL st (N / (2 * L)) b hb i hi

/-! ### The stage invariant -/

theorem revBits_two_mul (m c : ℕ) : revBits (m + 1) (2 * c) = revBits m c := by
  show 2 * c % 2 * 2 ^ m + revBits m (2 * c / 2) = revBits m c
  have h1 : 2 * c % 2 = 0 := by omega
  have h2 : 2 * c / 2 = c := by omega
  rw [h1, h2]
  simp

theorem revBits_two_mul_add_one (m c : ℕ) :
    revBits (m + 1) (2 * c + 1) = 2 ^ m + revBits m c := by
  show (2 * c + 1) % 2 * 2 ^ m + revBits m ((2 * c + 1) / 2) = 2 ^ m + revBits m c
  have h1 : (2 * c + 1) % 2 = 1 := by omega
  have h2 : (2 * c + 1) / 2 = c := by omega
  rw [h1, h2, one_mul]

/-- After the stages of width up to `2^ℓ`, block `c` of size `2^ℓ` holds the
`2^ℓ`-point DFT of the stride-`2^(n-ℓ)` subsequence of the input starting at
the bit-reversed block offset. -/
def FftInv (n ℓ : ℕ) (x : ℕ → ℂ) (st : (ℕ → ℝ) × (ℕ → ℝ)) : Prop :=
  ∀ c i, c < 2 ^ (n - ℓ) → i < 2 ^ ℓ →
    toC st (c * 2 ^ ℓ + i) =
      dftC (2 ^ ℓ) (fun t => x (t * 2 ^ (n - ℓ) + revBits (n - ℓ) c)) i

theorem fftStage_preserves (n ℓ : ℕ) (hn : ℓ < n) (x : ℕ → ℂ)
    (st : (ℕ → ℝ) × (ℕ → ℝ)) (h : FftInv n ℓ x st) :
    FftInv n (ℓ + 1) x (fftStage (2 ^ n) (2 ^ (ℓ + 1)) st) := by
  intro c i hc hi
  have hL : 0 < 2 ^ ℓ := pow_pos (by omega) ℓ
  have h2L : (2 : ℕ) ^ (ℓ + 1) = 2 * 2 ^ ℓ := by rw [pow_succ]; ring
  have hsub : n - ℓ = (n - (ℓ + 1)) + 1 := by omega
  have hpow : (2 : ℕ) ^ (n - ℓ) = 2 * 2 ^ (n - (ℓ + 1)) := by
    rw [hsub, pow_succ]; ring
  have hG : (2 : ℕ) ^ n / (2 * 2 ^ ℓ) = 2 ^ (n - (ℓ + 1)) := by
    rw [← h2L, Nat.pow_div (by omega) (by omega)]
  have hb : c < 2 ^ n / (2 * 2 ^ ℓ) := by rw [hG]; exact hc
  have hcast : ((2 * 2 ^ ℓ : ℕ) : ℝ) = 2 * ((2 ^ ℓ : ℕ) : ℝ) := by push_cast; ring
  set z : ℕ → ℂ := fun t => x (t * 2 ^ (n - (ℓ + 1)) + revBits (n - (ℓ + 1)) c) with hz
  have heven : (fun t => z (2 * t)) =
      (fun t => x (t * 2 ^ (n - ℓ) + revBits (n - ℓ) (2 * c))) := by
    funext t
    have e1 : revBits (n - ℓ) (2 * c) = revBits (n - (ℓ + 1)) c := by
      rw [hsub, revBits_two_mul]
    have e2 : 2 * t * 2 ^ (n - (ℓ + 1)) = t * 2 ^ (n - ℓ) := by
      rw [hpow]; ring
    show x (2 * t * 2 ^ (n - (ℓ + 1)) + revBits (n - (ℓ + 1)) c) =
      x (t * 2 ^ (n - ℓ) + revBits (n - ℓ) (2 * c))
    rw [e1, e2]
  have hodd : (fun t => z (2 * t + 1)) =
      (fun t => x (t * 2 ^ (n - ℓ) + revBits (n - ℓ) (2 * c + 1))) := by
    funext t
    have e1 : revBits (n - ℓ) (2 * c + 1) =
        2 ^ (n - (ℓ + 1)) + revBits (n - (ℓ + 1)) c := by
      rw [hsub, revBits_two_mul_add_one]
    have e2 : (2 * t + 1) * 2 ^ (n - (ℓ + 1)) =
        t * 2 ^ (n - ℓ) + 2 ^ (n - (ℓ + 1)) := by
      rw [hpow]; ring
    show x ((2 * t + 1) * 2 ^ (n - (ℓ + 1)) + revBits (n - (ℓ + 1)) c) =
      x (t * 2 ^ (n - ℓ) + revBits (n - ℓ) (2 * c + 1))
    rw [e1, e2]
    congr 1
    omega
  have hceven : 2 * c < 2 ^ (n - ℓ) := by omega
  have hcodd : 2 * c + 1 < 2 ^ (n - ℓ) := by omega
  rw [h2L]
  by_cases hil : i < 2 ^ ℓ
  · -- lower half of the block
    have hspec := (fftStage_spec (2 ^ n) (2 ^ ℓ) hL st c i hb hil).1
    rw [hcast] at hspec
    rw [hspec]
    have hsplit := dftC_split_low (2 ^ ℓ) hL z i
    rw [hsplit, heven, hodd]
    have he := h (2 * c) i hceven hil
    have ho := h (2 * c + 1) i hcodd hil
    rw [← he, ← ho]
    have hpos1 : 2 * c * 2 ^ ℓ + i = c * (2 * 2 ^ ℓ) + i := by ring
    have hpos2 : (2 * c + 1) * 2 ^ ℓ + i = c * (2 * 2 ^ ℓ) + i + 2 ^ ℓ := by ring
    rw [hpos1, hpos2]
  · -- upper half of the block
    have hi2 : i < 2 * 2 ^ ℓ := by
      rw [← h2L]; exact hi
    have hle : 2 ^ ℓ ≤ i := not_lt.mp hil
    obtain ⟨j, rfl⟩ : ∃ j, i = j + 2 ^ ℓ := ⟨i - 2 ^ ℓ, by omega⟩
    have hj : j < 2 ^ ℓ := by omega
    have hspec := (fftStage_spec (2 ^ n) (2 ^ ℓ) hL st c j hb hj).2
    rw [hcast] at hspec
    have hposeq : c * (2 * 2 ^ ℓ) + j + 2 ^ ℓ = c * (2 * 2 ^ ℓ) + (j + 2 ^ ℓ) := by
      ring
    rw [hposeq] at hspec
    rw [hspec]
    have hsplit := dftC_split_high (2 ^ ℓ) hL z j
    rw [hsplit, heven, hodd]
    have he := h (2 * c) j hceven hj
    have ho := h (2 * c + 1) j hcodd hj
    rw [← he, ← ho]
    have hpos1 : 2 * c * 2 ^ ℓ + j = c * (2 * 2 ^ ℓ) + j := by ring
    have hpos2 : (2 * c + 1) * 2 ^ ℓ + j = c * (2 * 2 ^ ℓ) + (j + 2 ^ ℓ) := by ring
    rw [hpos1, hpos2]

theorem fftStages_inv (n : ℕ) (x : ℕ → ℂ) (st : (ℕ → ℝ) × (ℕ → ℝ))
    (h : FftInv n 0 x st) : FftInv n n x (fftStages (2 ^ n) st) := by
  have hlog : (2 ^ n : ℕ).log2 = n := Nat.log2_two_pow
  unfold fftStages
  rw [hlog, List.foldl_map]
  suffices H : ∀ m, m ≤ n →
      FftInv n m x ((List.range m).foldl
        (fun st s => fftStage (2 ^ n) (2 ^ (s + 1)) st) st) by
    exact H n le_rfl
  intro m
  induction m with
  | zero => intro _; exact h
  | succ m ih =>
    intro hm
    rw [List.range_succ, List.foldl_append]
    simp only [List.foldl_cons, List.foldl_nil]
    exact fftStage_preserves n m (by omega) x _ (ih (by omega))

/-- C1.  For every real signal whose length is a power of two, the radix-2
Cooley–Tukey path of `fft` agrees with the direct `dft` summation exactly,
bin by bin, over real arithmetic (so under floating point the two differ
only by rounding, within any per-bin tolerance such as 1e-9). -/
theorem fft_eq_dft (signal : List ℝ) (K : ℕ) (hlen : signal.length = 2 ^ K) :
    fft signal = dft signal := by
  have hland : signal.length &&& (signal.length - 1) = 0 := by
    rw [hlen]
    apply Nat.eq_of_testBit_eq
    intro s
    rw [Nat.testBit_land, Nat.testBit_two_pow, Nat.testBit_two_pow_sub_one]
    rcases eq_or_ne K s with he | he
    · subst he
      simp
    · simp [he]
  set x : ℕ → ℂ := fun t => ((signal.getD t 0 : ℝ) : ℂ) with hx
  have hbase : FftInv K 0 x (bitRevCopy signal, fun _ => 0) := by
    intro c i hc hi
    have hi1 : i < 1 := by simpa using hi
    have hi0 : i = 0 := by omega
    subst hi0
    have hc' : c < 2 ^ K := by simpa using hc
    have hposc : c * 2 ^ 0 + 0 = c := by simp
    rw [hposc]
    have hdft1 : dftC (2 ^ 0)
        (fun t => x (t * 2 ^ (K - 0) + revBits (K - 0) c)) 0 =
        x (revBits K c) := by
      unfold dftC
      rw [pow_zero, Finset.sum_range_one]
      simp [cexp_zero]
    rw [hdft1]
    have hcopy := bitRevCopy_apply signal K hlen c hc'
    apply Complex.ext
    · simp [toC, hcopy, hx]
    · simp [toC, hx]
  have hinv := fftStages_inv K x _ hbase
  have hcond : ¬ (signal.length &&& (signal.length - 1) ≠ 0) := by simp [hland]
  have hfft : fft signal =
      { re := (List.range signal.length).map
          (fftStages signal.length (bitRevCopy signal, fun _ => 0)).1,
        im := (List.range signal.length).map
          (fftStages signal.length (bitRevCopy signal, fun _ => 0)).2 } := by
    unfold fft
    rw [if_neg hcond]
  have hseq : (fun t => x (t * 2 ^ (K - K) + revBits (K - K) 0)) = x := by
    funext t
    have : revBits (K - K) 0 = 0 := revBits_zero_val _
    rw [this]
    simp
  have hfinal : ∀ k, k < 2 ^ K →
      toC (fftStages (2 ^ K) (bitRevCopy signal, fun _ => 0)) k =
        dftC (2 ^ K) x k := by
    intro k hk
    have hone : (0 : ℕ) < 2 ^ (K - K) := by simp
    have := hinv 0 k hone hk
    rw [hseq] at this
    simpa using this
  rw [hfft]
  unfold dft
  rw [hlen]
  congr 1
  · apply List.map_congr_left
    intro k hk
    have hkN : k < 2 ^ K := List.mem_range.mp hk
    have hre : (fftStages (2 ^ K) (bitRevCopy signal, fun _ => 0)).1 k =
        (dftC (2 ^ K) x k).re := by
      rw [← hfinal k hkN]
      rfl
    rw [hre]
    unfold dftC
    rw [Complex.re_sum]
    apply Finset.sum_congr rfl
    intro t ht
    rw [hx]
    simp only [Complex.mul_re, Complex.ofReal_re, Complex.ofReal_im,
      cexp_re, cexp_im, zero_mul, sub_zero]
    congr 1
    ring
  · apply List.map_congr_left
    intro k hk
    have hkN : k < 2 ^ K := List.mem_range.mp hk
    have him : (fftStages (2 ^ K) (bitRevCopy signal, fun _ => 0)).2 k =
        (dftC (2 ^ K) x k).im := by
      rw [← hfinal k hkN]
      rfl
    rw [him]
    unfold dftC
    rw [Complex.im_sum]
    apply Finset.sum_congr rfl
    intro t ht
    rw [hx]
    simp only [Complex.mul_im, Complex.ofReal_re, Complex.ofReal_im,
      cexp_re, cexp_im, zero_mul, add_zero]
    congr 1
    ring

/-- Witness for C1 at a concrete power-of-two signal. -/
theorem fft_eq_dft_witness : fft [(1 : ℝ), 2] = dft [(1 : ℝ), 2] :=
  fft_eq_dft [1, 2] 1 (by rfl)

end SoS
